import Mathlib

/-!
Verification development for the `penguin` language front end
(`crates/diag` and `crates/syntax`): position/span model, the
indentation-sensitive lexer, and the Pratt parser, shallowly embedded
from the Rust sources, together with proofs of the specified properties.

Modelling conventions:
* `usize`/`u64` byte and char positions become `Nat`; the `u64` overflow
  bound of integer literals is kept explicitly via `u64Max`.
* Rust `Vec<char>` input becomes `List Char`; `self.input.get(i).copied().unwrap_or('\x00')`
  becomes `List.getD i '\x00'`.
* The lexer's Rust `while` loops over the cursor are modelled by
  `List.takeWhile` on the remaining input (`scanRun`); both stop at the
  first character failing the predicate, and out-of-bounds reads yield
  `'\x00'`, which fails every predicate the source uses.
* The Rust indentation stack is a `Vec` whose top is its last element;
  it is modelled as a `List Nat` whose top is its head.
* `lex_all`'s unbounded `loop` is modelled with explicit fuel; the fuel
  `input.length + 2` is proved sufficient (`lexAllGo_isSome_of_fuel`),
  which is the termination content of the source loop (the cursor
  strictly advances on every iteration).
-/

/-- Half-open span of byte positions, from `crates/diag/src/span.rs`
(`BytePos` is a `usize` newtype, modelled as `Nat`; `end` is a Lean
keyword, so the field is called `stop`). -/
structure Span where
  start : Nat
  stop : Nat
deriving DecidableEq, Repr

/-- `Span::from_range(range)` from span.rs. -/
def Span.fromRange (a b : Nat) : Span := ⟨a, b⟩

/-- `Span::merge` from span.rs: smallest span containing both. -/
def Span.merge (s t : Span) : Span :=
  ⟨min s.start t.start, max s.stop t.stop⟩

/-- `Spanned<T>` from span.rs. -/
structure Spanned (α : Type) where
  inner : α
  span : Span
deriving DecidableEq, Repr

/-- `TokenKind` from crates/syntax/src/token.rs. -/
inductive TokenKind where
  | IntLiteral (v : Nat)
  | BoolLiteral (b : Bool)
  | Ident (s : String)
  | Let
  | Mod
  | Not
  | Fn
  | U64
  | I64
  | Plus
  | Minus
  | Star
  | Slash
  | Equal
  | NotEqual
  | Less
  | LessEqual
  | Greater
  | GreaterEqual
  | And
  | Or
  | LParen
  | RParen
  | Comma
  | Dot
  | Colon
  | Eof
  | Arrow
  | Indent
  | Dedent
  | Newline
deriving DecidableEq, Repr

/-- `Token = Spanned<TokenKind>` from token.rs. -/
abbrev Token := Spanned TokenKind

/-- `LexerError` from crates/syntax/src/lexer.rs (`FileId` is a `usize`
newtype, modelled as a bare `Nat`). -/
inductive LexerError where
  | UnexpectedCharacter (ch : Char) (span : Span) (fileId : Nat)
  | InvalidNumber (text : String) (span : Span) (fileId : Nat)
  | NumberTooLarge (span : Span) (fileId : Nat)
  | InvalidIndentation (span : Span) (fileId : Nat)
deriving DecidableEq, Repr

/-- The largest `u64` value, bounding integer literals. -/
def u64Max : Nat := 2 ^ 64 - 1

/-- The run of leading characters of `cs.drop pos` satisfying `q`; this
models a Rust `while q(self.current()) { self.advance() }` loop starting
at `pos` (all predicates used reject `'\x00'`, the out-of-bounds
default, so the loop stops at end of input exactly as `takeWhile` stops
at the end of the list). -/
def scanRun (q : Char → Bool) (cs : List Char) (pos : Nat) : List Char :=
  (cs.drop pos).takeWhile q

/-- The `Lexer` struct from lexer.rs. The indentation stack keeps its
top at the head of the list (the Rust `Vec` keeps it at the tail). -/
structure Lexer where
  pos : Nat
  fileId : Nat
  input : List Char
  indentStack : List Nat
  pending : List TokenKind
deriving DecidableEq, Repr

/-- `Lexer::new` from lexer.rs: cursor 0, indent stack `[0]`, no pending
layout tokens. -/
def Lexer.new (fileId : Nat) (input : String) : Lexer :=
  ⟨0, fileId, input.toList, [0], []⟩

/-- `Lexer::current`: character under the cursor, `'\x00'` at end. -/
def Lexer.current (l : Lexer) : Char := l.input.getD l.pos '\x00'

/-- `Lexer::peek`: character one past the cursor, `'\x00'` at end. -/
def Lexer.peek (l : Lexer) : Char := l.input.getD (l.pos + 1) '\x00'

/-- `Lexer::advance`. -/
def Lexer.advance (l : Lexer) : Lexer := { l with pos := l.pos + 1 }

/-- The character class skipped by `Lexer::skip_whitespace`. -/
def isHorizWs (c : Char) : Bool := c = ' ' || c = '\t' || c = '\r'

/-- `Lexer::skip_whitespace`: advance while the current character is a
space, tab or carriage return. -/
def Lexer.skipWhitespace (l : Lexer) : Lexer :=
  { l with pos := l.pos + (scanRun isHorizWs l.input l.pos).length }

/-- Continuation class of `Lexer::lex_ident`: Rust's
`char::is_alphanumeric() || c == '_'`. Rust's predicate is
Unicode-aware; `Char.isAlphanum` is its ASCII restriction, and the
lexer's identifier-start rule (`'a'..='z' | 'A'..='Z' | '_'`) is ASCII
anyway, so the claims under verification do not distinguish them. -/
def isIdentCont (c : Char) : Bool := c.isAlphanum || c = '_'

/-- `Lexer::lex_ident`: consume the maximal alphanumeric/underscore run
and return it as a string. (The Rust function wraps the result in `Ok`
but can never fail; the error case is dropped here.) -/
def Lexer.lexIdent (l : Lexer) : Lexer × String :=
  let run := scanRun isIdentCont l.input l.pos
  ({ l with pos := l.pos + run.length }, String.mk run)

/-- Numeric value of a decimal digit run, as computed by Rust's
`str::parse::<u64>` before its overflow check. -/
def digitsToNat (run : List Char) : Nat :=
  run.foldl (fun a c => a * 10 + (c.toNat - 48)) 0

/-- `Lexer::lex_num`: consume the maximal ASCII digit run and parse it
as a `u64`. `text.parse::<u64>()` fails on this all-digit, nonempty text
exactly when the value exceeds `u64::MAX`; the source then distinguishes
`NumberTooLarge` (all digits, the reachable case) from `InvalidNumber`
(unreachable here, kept for fidelity). -/
def Lexer.lexNum (l : Lexer) : Lexer × Except LexerError Nat :=
  let start := l.pos
  let run := scanRun Char.isDigit l.input l.pos
  let l' : Lexer := { l with pos := l.pos + run.length }
  let v := digitsToNat run
  if v ≤ u64Max then
    (l', .ok v)
  else if run.all Char.isDigit then
    (l', .error (.NumberTooLarge (Span.fromRange start l'.pos) l.fileId))
  else
    (l', .error (.InvalidNumber (String.mk run) (Span.fromRange start l'.pos) l.fileId))

/-- `Lexer::count_indent`: count and consume the run of spaces at the
cursor. -/
def Lexer.countIndent (l : Lexer) : Lexer × Nat :=
  let run := scanRun (fun c => c = ' ') l.input l.pos
  ({ l with pos := l.pos + run.length }, run.length)

/-- The `while let Some(&top) = self.indent_stack.last()` pop loop of
`Lexer::handle_newline`: pop levels strictly greater than `indent`,
returning the remaining stack and the number of levels popped (one
`Dedent` is pushed onto `pending` per pop). -/
def popWhileGreater (indent : Nat) : List Nat → List Nat × Nat
  | [] => ([], 0)
  | top :: rest =>
    if indent < top then
      let (s, n) := popWhileGreater indent rest
      (s, n + 1)
    else (top :: rest, 0)

/-- `Lexer::handle_newline` from lexer.rs: step past the newline, count
the next line's leading spaces, and update the indentation stack,
queueing `Indent`/`Dedent` markers on `pending`. -/
def Lexer.handleNewline (l : Lexer) : Lexer × Except LexerError TokenKind :=
  let l := l.advance
  let (l, indent) := l.countIndent
  let current := l.indentStack.headD 0
  if indent > current then
    ({ l with indentStack := indent :: l.indentStack,
              pending := l.pending ++ [.Indent] }, .ok .Newline)
  else if indent < current then
    let (stack, n) := popWhileGreater indent l.indentStack
    let l := { l with indentStack := stack,
                      pending := l.pending ++ List.replicate n .Dedent }
    if l.indentStack.headD 0 ≠ indent then
      (l, .error (.InvalidIndentation (Span.fromRange l.pos l.pos) l.fileId))
    else
      (l, .ok .Newline)
  else
    (l, .ok .Newline)

/-- Keyword table of `Lexer::next_token`'s identifier arm. -/
def keywordOrIdent (s : String) : TokenKind :=
  if s = "let" then .Let
  else if s = "mod" then .Mod
  else if s = "fn" then .Fn
  else if s = "not" then .Not
  else if s = "u64" then .U64
  else if s = "i64" then .I64
  else if s = "true" then .BoolLiteral true
  else if s = "false" then .BoolLiteral false
  else .Ident s

/-- Identifier-start class of `next_token`: `'a'..='z' | 'A'..='Z' | '_'`
(ASCII only in the source as well). -/
def isIdentStart (c : Char) : Bool := c.isAlpha || c = '_'

/-- The dispatch `match` of `Lexer::next_token`, operating on the state
after `skip_whitespace` and producing the token kind (guard arms such
as `'&' if self.peek() == '&'` become conditions of the if-chain; a
failed guard falls through to the wildcard arm, as in Rust). Note that
the `'-'`, `'<'` and `'>'` arms consult `peek()` after having already
advanced past the operator character, exactly as the source does. -/
def Lexer.nextTokenKind (l : Lexer) : Lexer × Except LexerError TokenKind :=
  let ch := l.current
  if ch = '\x00' then (l.advance, .ok .Eof)
  else if ch = '\n' then l.handleNewline
  else if ch = '(' then (l.advance, .ok .LParen)
  else if ch = ')' then (l.advance, .ok .RParen)
  else if ch = '.' then (l.advance, .ok .Dot)
  else if ch = ',' then (l.advance, .ok .Comma)
  else if ch = ':' then (l.advance, .ok .Colon)
  else if ch = '+' then (l.advance, .ok .Plus)
  else if ch = '-' then
    let l := l.advance
    if l.peek = '>' then (l.advance, .ok .Arrow) else (l, .ok .Minus)
  else if ch = '*' then (l.advance, .ok .Star)
  else if ch = '/' then (l.advance, .ok .Slash)
  else if ch = '=' then (l.advance, .ok .Equal)
  else if ch = '<' then
    let l := l.advance
    if l.peek = '>' then (l.advance, .ok .NotEqual)
    else if l.peek = '=' then (l.advance, .ok .LessEqual)
    else (l, .ok .Less)
  else if ch = '>' then
    let l := l.advance
    if l.peek = '=' then (l.advance, .ok .GreaterEqual) else (l, .ok .Greater)
  else if ch = '&' ∧ l.peek = '&' then (l.advance.advance, .ok .And)
  else if ch = '|' ∧ l.peek = '|' then (l.advance.advance, .ok .Or)
  else if isIdentStart ch then
    let r := l.lexIdent
    (r.1, .ok (keywordOrIdent r.2))
  else if ch.isDigit then
    -- `self.lex_num().map(TokenKind::IntLiteral)?` in the source
    let r := l.lexNum
    (r.1, r.2.map .IntLiteral)
  else
    (l, .error (.UnexpectedCharacter ch (Span.fromRange l.pos l.pos) l.fileId))

/-- `Lexer::next_token` from lexer.rs: skip horizontal whitespace,
remember the start position, dispatch on the current character, and wrap
the produced kind with the span from the start position to the new
cursor (errors are returned as-is, with the state mutations that
happened before the early return). -/
def Lexer.nextToken (l0 : Lexer) : Lexer × Except LexerError Token :=
  let l := l0.skipWhitespace
  let pos := l.pos
  let r := l.nextTokenKind
  (r.1, r.2.map fun kind => ⟨kind, Span.fromRange pos r.1.pos⟩)

/-- The `while self.indent_stack.len() > 1 { pop }` unwinding loop of
`lex_all` at `Eof`: what remains of the stack (its bottom element). -/
def unwindStack : List Nat → List Nat
  | _ :: b :: rest => unwindStack (b :: rest)
  | s => s

/-- The `loop` of `Lexer::lex_all`, with explicit fuel: accumulate
tokens; at `Eof`, emit one `Dedent` per indentation level still open
(each with the `Eof` span) followed by the `Eof` token and stop; on an
error, record it and advance one character. `none` is fuel exhaustion,
which `lexAllGo_isSome_of_fuel` below proves unreachable for the fuel
`lexAllRaw` supplies. -/
def Lexer.lexAllGo : Nat → Lexer → List Token → List LexerError →
    Option (List Token × List LexerError × Lexer)
  | 0, _, _, _ => none
  | fuel + 1, l, tokens, errors =>
    match l.nextToken with
    | (l', .ok tok) =>
      if tok.inner = .Eof then
        some (tokens ++ List.replicate (l'.indentStack.length - 1) ⟨.Dedent, tok.span⟩
                ++ [tok],
              errors,
              { l' with indentStack := unwindStack l'.indentStack })
      else
        Lexer.lexAllGo fuel l' (tokens ++ [tok]) errors
    | (l', .error e) =>
      Lexer.lexAllGo fuel l'.advance tokens (errors ++ [e])

/-! Progress facts about `next_token`, used to discharge the loop fuel:
the cursor never moves backwards, a non-`Eof` token or an error can only
be produced strictly inside the input, and a non-`Eof` token strictly
advances the cursor. -/

theorem scanRun_drop_length (q : Char → Bool) (cs : List Char) (pos : Nat) :
    pos + (scanRun q cs pos).length ≤ cs.length ∨
      (cs.getD (pos + (scanRun q cs pos).length) '\x00' = '\x00' ∧
        scanRun q cs pos = []) := by
  by_cases h : pos ≤ cs.length
  · left
    have hpre := List.takeWhile_prefix (l := cs.drop pos) q
    have hlen : (scanRun q cs pos).length ≤ (cs.drop pos).length := hpre.length_le
    have : (cs.drop pos).length = cs.length - pos := List.length_drop ..
    omega
  · right
    have hd : cs.drop pos = [] := List.drop_eq_nil_of_le (by omega)
    have hrun : scanRun q cs pos = [] := by simp [scanRun, hd]
    refine ⟨?_, hrun⟩
    exact List.getD_eq_default _ _ (by omega)

theorem getD_drop_eq_cons (cs : List Char) (pos : Nat) (c : Char) (d : List Char)
    (hd : cs.drop pos = c :: d) :
    cs.getD pos '\x00' = c ∧ cs.drop (pos + 1) = d := by
  constructor
  · have h0 : cs[pos]? = some c := by
      have := List.getElem?_drop cs pos 0
      rw [hd] at this
      simpa using this.symm
    simp [List.getD, h0]
  · have := List.drop_drop 1 pos cs
    rw [hd] at this
    simpa [Nat.add_comm] using this.symm

theorem charAt_failure_of_scanRun (q : Char → Bool) (hq : q '\x00' = false)
    (cs : List Char) (pos : Nat) :
    q (cs.getD (pos + (scanRun q cs pos).length) '\x00') = false := by
  unfold scanRun
  generalize hd : cs.drop pos = d
  induction d generalizing pos with
  | nil =>
    simp only [List.takeWhile_nil, List.length_nil, Nat.add_zero]
    have hlen : cs.length ≤ pos := by
      by_contra hlt
      have hne : cs.drop pos ≠ [] := by
        rw [ne_eq, List.drop_eq_nil_iff]
        omega
      exact hne hd
    rw [List.getD_eq_default _ _ (by omega)]
    exact hq
  | cons c d ih =>
    obtain ⟨hc, htl⟩ := getD_drop_eq_cons cs pos c d hd
    by_cases hqc : q c
    · rw [List.takeWhile_cons, if_pos hqc]
      have hih := ih (pos + 1) htl
      have harith : pos + (c :: List.takeWhile q d).length =
          pos + 1 + (List.takeWhile q d).length := by
        simp [List.length_cons]
        omega
      rw [harith]
      exact hih
    · rw [List.takeWhile_cons, if_neg hqc]
      rw [Bool.not_eq_true] at hqc
      have hc' : cs[pos]?.getD '\x00' = c := by simpa [List.getD] using hc
      simpa [hc'] using hqc

theorem getD_ne_default_lt (cs : List Char) (pos : Nat)
    (h : cs.getD pos '\x00' ≠ '\x00') : pos < cs.length := by
  by_contra hge
  exact h (List.getD_eq_default _ _ (by omega))

theorem scanRun_length_pos (q : Char → Bool) (cs : List Char) (pos : Nat)
    (h : q (cs.getD pos '\x00') = true) (hq : q '\x00' = false) :
    0 < (scanRun q cs pos).length := by
  have hlt : pos < cs.length := by
    apply getD_ne_default_lt
    intro hnul
    rw [hnul, hq] at h
    exact Bool.false_ne_true h
  have hd : cs.drop pos = cs[pos] :: cs.drop (pos + 1) :=
    List.drop_eq_getElem_cons hlt
  have hget : cs.getD pos '\x00' = cs[pos] := List.getD_eq_getElem _ _ hlt
  rw [hget] at h
  unfold scanRun
  rw [hd, List.takeWhile_cons, if_pos h]
  simp

theorem lexNum_state (l : Lexer) :
    (l.lexNum).1.pos = l.pos + (scanRun Char.isDigit l.input l.pos).length ∧
      (l.lexNum).1.input = l.input := by
  unfold Lexer.lexNum
  dsimp only
  split_ifs <;> exact ⟨rfl, rfl⟩

theorem handleNewline_state (l : Lexer) :
    (l.handleNewline).1.pos =
        l.pos + 1 + (scanRun (fun c => c = ' ') l.input (l.pos + 1)).length ∧
      (l.handleNewline).1.input = l.input := by
  unfold Lexer.handleNewline Lexer.countIndent Lexer.advance
  dsimp only
  split_ifs <;> exact ⟨rfl, rfl⟩

/-- The shape of the progress facts proved about the dispatch of
`next_token` relative to the pre-dispatch state `l`: input untouched,
cursor monotone, a token other than `Eof` strictly advances the cursor
inside the input, and errors arise only strictly inside the input. -/
def NTSpec (l : Lexer) (out : Lexer × Except LexerError TokenKind) : Prop :=
  out.1.input = l.input ∧
    l.pos ≤ out.1.pos ∧
    (∀ k, out.2 = .ok k → k ≠ .Eof →
      l.pos < out.1.pos ∧ l.pos < l.input.length) ∧
    (∀ e, out.2 = .error e → l.pos < l.input.length)

theorem current_lt_length (l : Lexer) (h : l.current ≠ '\x00') :
    l.pos < l.input.length :=
  getD_ne_default_lt _ _ h

theorem leafOk (l l' : Lexer) (k₀ : TokenKind) (hin : l'.input = l.input)
    (hlt : l.pos < l'.pos) (hlen : l.pos < l.input.length) :
    NTSpec l (l', .ok k₀) :=
  ⟨hin, le_of_lt hlt, fun _ _ _ => ⟨hlt, hlen⟩, fun _ he => Except.noConfusion he⟩

theorem leafEof (l : Lexer) : NTSpec l (l.advance, .ok .Eof) :=
  ⟨rfl, by simp [Lexer.advance],
    fun k hk hne => absurd (by injection hk with h; exact h.symm) hne,
    fun _ he => Except.noConfusion he⟩

theorem leafErr (l l' : Lexer) (e₀ : LexerError) (hin : l'.input = l.input)
    (hle : l.pos ≤ l'.pos) (hlen : l.pos < l.input.length) :
    NTSpec l (l', .error e₀) :=
  ⟨hin, hle, fun _ hk => Except.noConfusion hk, fun _ _ => hlen⟩

theorem leafNewline (l : Lexer) (hlen : l.pos < l.input.length) :
    NTSpec l l.handleNewline := by
  obtain ⟨hpos, hin⟩ := handleNewline_state l
  exact ⟨hin, by omega, fun _ _ _ => ⟨by omega, hlen⟩, fun _ _ => hlen⟩

theorem identStart_imp_cont (c : Char) (h : isIdentStart c = true) :
    isIdentCont c = true := by
  simp only [isIdentStart, isIdentCont, Char.isAlphanum, Bool.or_eq_true] at *
  rcases h with h | h
  · exact Or.inl (Or.inl h)
  · exact Or.inr h

theorem leafIdent (l : Lexer) (h : isIdentStart l.current = true) :
    NTSpec l ((l.lexIdent).1, .ok (keywordOrIdent (l.lexIdent).2)) := by
  have hrun : 0 < (scanRun isIdentCont l.input l.pos).length :=
    scanRun_length_pos _ _ _ (identStart_imp_cont _ h) (by decide)
  have hlen : l.pos < l.input.length := by
    apply current_lt_length
    intro h0
    rw [h0] at h
    exact absurd h (by decide)
  refine ⟨rfl, ?_, fun _ _ _ => ⟨?_, hlen⟩, fun _ he => Except.noConfusion he⟩ <;>
    (dsimp only [Lexer.lexIdent]; omega)

theorem leafNum (l : Lexer) (h : Char.isDigit l.current = true) :
    NTSpec l ((l.lexNum).1, (l.lexNum).2.map .IntLiteral) := by
  obtain ⟨hpos, hin⟩ := lexNum_state l
  have hrun : 0 < (scanRun Char.isDigit l.input l.pos).length :=
    scanRun_length_pos _ _ _ h (by decide)
  have hlen : l.pos < l.input.length := by
    apply current_lt_length
    intro h0
    rw [h0] at h
    exact absurd h (by decide)
  refine ⟨hin, ?_, fun _ _ _ => ⟨?_, hlen⟩, fun _ _ => hlen⟩ <;> (dsimp only; omega)

/-- Progress facts for the dispatch `match` of `next_token`. -/
theorem nextTokenKind_spec (l : Lexer) : NTSpec l l.nextTokenKind := by
  unfold Lexer.nextTokenKind
  dsimp only
  by_cases h0 : l.current = '\x00'
  · rw [if_pos h0]; exact leafEof l
  rw [if_neg h0]
  have hlen : l.pos < l.input.length := current_lt_length l h0
  by_cases h1 : l.current = '\n'
  · rw [if_pos h1]; exact leafNewline l hlen
  rw [if_neg h1]
  by_cases h2 : l.current = '('
  · rw [if_pos h2]; exact leafOk l _ _ rfl (by dsimp only [Lexer.advance]; omega) hlen
  rw [if_neg h2]
  by_cases h3 : l.current = ')'
  · rw [if_pos h3]; exact leafOk l _ _ rfl (by dsimp only [Lexer.advance]; omega) hlen
  rw [if_neg h3]
  by_cases h4 : l.current = '.'
  · rw [if_pos h4]; exact leafOk l _ _ rfl (by dsimp only [Lexer.advance]; omega) hlen
  rw [if_neg h4]
  by_cases h5 : l.current = ','
  · rw [if_pos h5]; exact leafOk l _ _ rfl (by dsimp only [Lexer.advance]; omega) hlen
  rw [if_neg h5]
  by_cases h6 : l.current = ':'
  · rw [if_pos h6]; exact leafOk l _ _ rfl (by dsimp only [Lexer.advance]; omega) hlen
  rw [if_neg h6]
  by_cases h7 : l.current = '+'
  · rw [if_pos h7]; exact leafOk l _ _ rfl (by dsimp only [Lexer.advance]; omega) hlen
  rw [if_neg h7]
  by_cases h8 : l.current = '-'
  · rw [if_pos h8]
    by_cases h8a : (l.advance).peek = '>'
    · rw [if_pos h8a]; exact leafOk l _ _ rfl (by dsimp only [Lexer.advance]; omega) hlen
    · rw [if_neg h8a]; exact leafOk l _ _ rfl (by dsimp only [Lexer.advance]; omega) hlen
  rw [if_neg h8]
  by_cases h9 : l.current = '*'
  · rw [if_pos h9]; exact leafOk l _ _ rfl (by dsimp only [Lexer.advance]; omega) hlen
  rw [if_neg h9]
  by_cases h10 : l.current = '/'
  · rw [if_pos h10]; exact leafOk l _ _ rfl (by dsimp only [Lexer.advance]; omega) hlen
  rw [if_neg h10]
  by_cases h11 : l.current = '='
  · rw [if_pos h11]; exact leafOk l _ _ rfl (by dsimp only [Lexer.advance]; omega) hlen
  rw [if_neg h11]
  by_cases h12 : l.current = '<'
  · rw [if_pos h12]
    by_cases h12a : (l.advance).peek = '>'
    · rw [if_pos h12a]; exact leafOk l _ _ rfl (by dsimp only [Lexer.advance]; omega) hlen
    rw [if_neg h12a]
    by_cases h12b : (l.advance).peek = '='
    · rw [if_pos h12b]; exact leafOk l _ _ rfl (by dsimp only [Lexer.advance]; omega) hlen
    · rw [if_neg h12b]; exact leafOk l _ _ rfl (by dsimp only [Lexer.advance]; omega) hlen
  rw [if_neg h12]
  by_cases h13 : l.current = '>'
  · rw [if_pos h13]
    by_cases h13a : (l.advance).peek = '='
    · rw [if_pos h13a]; exact leafOk l _ _ rfl (by dsimp only [Lexer.advance]; omega) hlen
    · rw [if_neg h13a]; exact leafOk l _ _ rfl (by dsimp only [Lexer.advance]; omega) hlen
  rw [if_neg h13]
  by_cases h14 : l.current = '&' ∧ l.peek = '&'
  · rw [if_pos h14]; exact leafOk l _ _ rfl (by dsimp only [Lexer.advance]; omega) hlen
  rw [if_neg h14]
  by_cases h15 : l.current = '|' ∧ l.peek = '|'
  · rw [if_pos h15]; exact leafOk l _ _ rfl (by dsimp only [Lexer.advance]; omega) hlen
  rw [if_neg h15]
  by_cases h16 : isIdentStart l.current = true
  · rw [if_pos h16]; exact leafIdent l h16
  rw [if_neg h16]
  by_cases h17 : Char.isDigit l.current = true
  · rw [if_pos h17]; exact leafNum l h17
  rw [if_neg h17]
  exact leafErr l _ _ rfl le_rfl hlen

/-- `next_token` inherits the progress facts of its dispatch through the
initial `skip_whitespace`. -/
theorem nextToken_spec (l0 : Lexer) :
    (l0.nextToken).1.input = l0.input ∧
      l0.pos ≤ (l0.nextToken).1.pos ∧
      (∀ tok, (l0.nextToken).2 = .ok tok → tok.inner ≠ .Eof →
        l0.pos < (l0.nextToken).1.pos ∧ l0.pos < l0.input.length) ∧
      (∀ e, (l0.nextToken).2 = .error e → l0.pos < l0.input.length) := by
  have hs : (l0.skipWhitespace).input = l0.input := rfl
  have hsp : l0.pos ≤ (l0.skipWhitespace).pos := by
    dsimp only [Lexer.skipWhitespace]
    omega
  obtain ⟨hin, hle, hok, herr⟩ := nextTokenKind_spec l0.skipWhitespace
  unfold Lexer.nextToken
  dsimp only
  refine ⟨hin.trans hs, by omega, ?_, ?_⟩
  · intro tok htok hne
    rcases hr : (l0.skipWhitespace).nextTokenKind.2 with e | k
    · rw [hr] at htok
      exact absurd htok (by simp [Except.map])
    · rw [hr] at htok
      simp only [Except.map] at htok
      injection htok with htok
      have hk : k ≠ .Eof := by
        intro hke
        apply hne
        rw [← htok, hke]
      have hkk := hok k hr hk
      rw [hs] at hkk
      omega
  · intro e he
    rcases hr : (l0.skipWhitespace).nextTokenKind.2 with e' | k
    · have h2 := herr e' hr
      rw [hs] at h2
      omega
    · rw [hr] at he
      exact absurd he (by simp [Except.map])

/-- The fuel `input.length + 2 - pos` makes `lexAllGo` run to
completion: this is exactly the termination argument of `lex_all`'s
`loop` (each iteration strictly advances the cursor, either through the
produced token or through the explicit `advance` after an error). -/
theorem lexAllGo_isSome_of_fuel :
    ∀ (fuel : Nat) (l : Lexer) (toks : List Token) (errs : List LexerError),
      1 ≤ fuel → l.input.length + 2 - l.pos ≤ fuel →
      (Lexer.lexAllGo fuel l toks errs).isSome := by
  intro fuel
  induction fuel with
  | zero => intro l toks errs h1 _; omega
  | succ f ih =>
    intro l toks errs _ hfuel
    obtain ⟨hin, hle, hok, herr⟩ := nextToken_spec l
    unfold Lexer.lexAllGo
    rcases hnt : l.nextToken with ⟨l', r⟩
    rw [hnt] at hin hle hok herr
    dsimp only at hin hle hok herr
    cases r with
    | ok tok =>
      dsimp only
      by_cases heof : tok.inner = .Eof
      · rw [if_pos heof]
        simp
      · rw [if_neg heof]
        obtain ⟨hlt, hlen⟩ := hok tok rfl heof
        apply ih
        · omega
        · rw [hin]; omega
    | error e =>
      dsimp only
      have hlen := herr e rfl
      apply ih
      · omega
      · dsimp only [Lexer.advance]
        rw [hin]
        omega

/-- More fuel never changes a completed `lexAllGo` run. -/
theorem lexAllGo_mono :
    ∀ (fuel fuel' : Nat) (l : Lexer) (toks : List Token) (errs : List LexerError) r,
      fuel ≤ fuel' → Lexer.lexAllGo fuel l toks errs = some r →
      Lexer.lexAllGo fuel' l toks errs = some r := by
  intro fuel
  induction fuel with
  | zero => intro fuel' l toks errs r _ h; exact absurd h (by simp [Lexer.lexAllGo])
  | succ f ih =>
    intro fuel' l toks errs r hle h
    obtain ⟨f', rfl⟩ : ∃ f', fuel' = f' + 1 := ⟨fuel' - 1, by omega⟩
    unfold Lexer.lexAllGo at h ⊢
    rcases hnt : l.nextToken with ⟨l', rr⟩
    rw [hnt] at h
    cases rr with
    | ok tok =>
      dsimp only at h ⊢
      by_cases heof : tok.inner = .Eof
      · rw [if_pos heof] at h ⊢; exact h
      · rw [if_neg heof] at h ⊢; exact ih f' _ _ _ _ (by omega) h
    | error e =>
      dsimp only at h ⊢
      exact ih f' _ _ _ _ (by omega) h

/-- `Lexer::lex_all`, raw form: the `loop`'s accumulated tokens and
errors together with the final lexer state, with the sufficient fuel
`input.length + 2`. -/
def Lexer.lexAllRaw (l : Lexer) : List Token × List LexerError × Lexer :=
  (Lexer.lexAllGo (l.input.length + 2) l [] []).get
    (lexAllGo_isSome_of_fuel _ _ _ _ (by omega) (by omega))

/-- `Lexer::lex_all` from lexer.rs: the token sequence if no error was
recorded, otherwise all recorded errors. -/
def Lexer.lexAll (l : Lexer) : Except (List LexerError) (List Token) :=
  let r := l.lexAllRaw
  if r.2.1 = [] then .ok r.1 else .error r.2.1

/-- Run the lexer on a source string, as `Lexer::new(file, &input)`
followed by `lex_all` (file id 0), keeping the raw loop state. -/
def lexRaw (s : String) : List Token × List LexerError × Lexer :=
  (Lexer.new 0 s).lexAllRaw

/-- Run the lexer on a source string, `Result`-valued as in the source. -/
def lexInput (s : String) : Except (List LexerError) (List Token) :=
  (Lexer.new 0 s).lexAll

/-- C1: the claim says `handle_newline` "emits one `Indent` token into
the output token sequence" when a line is more indented, and that the
numbers of emitted `Indent` and `Dedent` tokens agree over a `lex_all`
run. The code instead pushes the `Indent` marker onto the `pending`
queue, which is never drained into the output: lexing `"a\n  b"` yields
no `Indent` token at all but one `Dedent` (emitted by the unwinding at
`Eof`), while the pushed `Indent` is left sitting in `pending` in the
final lexer state (and the new width 2 was pushed and unwound from the
stack, whose bottom `[0]` remains). -/
theorem c1_indent_token_never_emitted :
    lexInput "a\n  b" = .ok
      [⟨.Ident "a", ⟨0, 1⟩⟩, ⟨.Newline, ⟨1, 4⟩⟩, ⟨.Ident "b", ⟨4, 5⟩⟩,
        ⟨.Dedent, ⟨5, 6⟩⟩, ⟨.Eof, ⟨5, 6⟩⟩] ∧
      ((lexRaw "a\n  b").1.map Spanned.inner).count .Indent = 0 ∧
      ((lexRaw "a\n  b").1.map Spanned.inner).count .Dedent = 1 ∧
      (lexRaw "a\n  b").2.2.pending = [.Indent] ∧
      (lexRaw "a\n  b").2.2.indentStack = [0] :=
  ⟨rfl, rfl, rfl, rfl, rfl⟩

/-- C4: the claim says `->`, `<>`, `<=`, `>=` lex as single compound
tokens. The `'-'`, `'<'` and `'>'` arms of `next_token` consult `peek()`
only after having already advanced past the operator character, so the
test looks one character too far: `"<="` lexes as `Less`, `Equal`;
`"->"` as `Minus`, `Greater`; `"<>"` as `Less`, `Greater`; `">="` as
`Greater`, `Equal`. Only `&&` and `||` (whose guards test `peek` before
advancing) and the lone `&`/`|` errors behave as claimed. -/
theorem c4_compound_operators_split :
    lexInput "<=" = .ok [⟨.Less, ⟨0, 1⟩⟩, ⟨.Equal, ⟨1, 2⟩⟩, ⟨.Eof, ⟨2, 3⟩⟩] ∧
      lexInput "->" = .ok [⟨.Minus, ⟨0, 1⟩⟩, ⟨.Greater, ⟨1, 2⟩⟩, ⟨.Eof, ⟨2, 3⟩⟩] ∧
      lexInput "<>" = .ok [⟨.Less, ⟨0, 1⟩⟩, ⟨.Greater, ⟨1, 2⟩⟩, ⟨.Eof, ⟨2, 3⟩⟩] ∧
      lexInput ">=" = .ok [⟨.Greater, ⟨0, 1⟩⟩, ⟨.Equal, ⟨1, 2⟩⟩, ⟨.Eof, ⟨2, 3⟩⟩] ∧
      lexInput "&&" = .ok [⟨.And, ⟨0, 2⟩⟩, ⟨.Eof, ⟨2, 3⟩⟩] ∧
      lexInput "||" = .ok [⟨.Or, ⟨0, 2⟩⟩, ⟨.Eof, ⟨2, 3⟩⟩] ∧
      lexInput "&" = .error [.UnexpectedCharacter '&' ⟨0, 0⟩ 0] ∧
      lexInput "|" = .error [.UnexpectedCharacter '|' ⟨0, 0⟩ 0] :=
  ⟨rfl, rfl, rfl, rfl, rfl, rfl, rfl, rfl⟩

/-- C8, counterexample: the claim says that after any recoverable error
(unexpected character or bad number) scanning resumes at the next
character, "skipping no further input". After a bad-number error the
digit run has already been consumed, and `lex_all`'s unconditional
`advance` then skips the character immediately following the number: in
`"99999999999999999999+7"` the `+` is silently dropped — the
accumulated tokens are `7`, `Eof` with no `Plus` token and no error
mentioning the `+`. -/
theorem c8_number_error_skips_input :
    lexInput "99999999999999999999+7" = .error [.NumberTooLarge ⟨0, 20⟩ 0] ∧
      (lexRaw "99999999999999999999+7").1 =
        [⟨.IntLiteral 7, ⟨21, 22⟩⟩, ⟨.Eof, ⟨22, 23⟩⟩] ∧
      ((lexRaw "99999999999999999999+7").1.map Spanned.inner).count .Plus = 0 :=
  ⟨rfl, rfl, rfl⟩

/-- C8, amended: after an unexpected-character error the lexer records
the error and resumes at the next character (for errors generally it
resumes one character past wherever `next_token` stopped, which for a
bad number skips the character after the digit run); in particular
lexing `"23 + 1 @"` reports exactly one `UnexpectedCharacter` error and
the tokens accumulated around it are `23`, `+`, `1`, `Eof`. -/
theorem c8_error_recovery :
    lexInput "23 + 1 @" = .error [.UnexpectedCharacter '@' ⟨7, 7⟩ 0] ∧
      (lexRaw "23 + 1 @").1 =
        [⟨.IntLiteral 23, ⟨0, 2⟩⟩, ⟨.Plus, ⟨3, 4⟩⟩, ⟨.IntLiteral 1, ⟨5, 6⟩⟩,
          ⟨.Eof, ⟨8, 9⟩⟩] ∧
      (∀ (fuel : Nat) (l : Lexer) (toks : List Token) (errs : List LexerError)
          (l' : Lexer) (e : LexerError), l.nextToken = (l', .error e) →
        Lexer.lexAllGo (fuel + 1) l toks errs =
          Lexer.lexAllGo fuel l'.advance toks (errs ++ [e])) := by
  refine ⟨rfl, rfl, ?_⟩
  intro fuel l toks errs l' e h
  conv_lhs => rw [Lexer.lexAllGo]
  rw [h]

/-- Witness for the recovery-step clause of `c8_error_recovery`, at the
one-character input `"@"` whose first `next_token` call errors. -/
theorem c8_error_recovery_witness :
    Lexer.lexAllGo 2 (Lexer.new 0 "@") [] [] =
      Lexer.lexAllGo 1 (⟨0, 0, "@".toList, [0], []⟩ : Lexer).advance []
        [.UnexpectedCharacter '@' ⟨0, 0⟩ 0] :=
  c8_error_recovery.2.2 1 (Lexer.new 0 "@") [] []
    ⟨0, 0, "@".toList, [0], []⟩ (.UnexpectedCharacter '@' ⟨0, 0⟩ 0) rfl

/-- Invariant of the `lex_all` loop: a completed run appends to the
accumulated tokens a (possibly empty) block of non-`Eof` tokens followed
by exactly one final `Eof` token, and only appends to the accumulated
errors. -/
theorem lexAllGo_shape :
    ∀ (fuel : Nat) (l : Lexer) (toks : List Token) (errs : List LexerError) out,
      Lexer.lexAllGo fuel l toks errs = some out →
      (∃ mid spanE, out.1 = toks ++ mid ++ [⟨.Eof, spanE⟩] ∧
        ∀ t ∈ mid, t.inner ≠ .Eof) ∧
        ∃ more, out.2.1 = errs ++ more := by
  intro fuel
  induction fuel with
  | zero =>
    intro l toks errs out h
    exact absurd h (by simp [Lexer.lexAllGo])
  | succ f ih =>
    intro l toks errs out h
    unfold Lexer.lexAllGo at h
    rcases hnt : l.nextToken with ⟨l', rr⟩
    rw [hnt] at h
    cases rr with
    | ok tok =>
      dsimp only at h
      rcases tok with ⟨ti, ts⟩
      by_cases heof : ti = .Eof
      · subst heof
        rw [if_pos rfl] at h
        injection h with h
        subst h
        refine ⟨⟨List.replicate (l'.indentStack.length - 1) ⟨.Dedent, ts⟩, ts,
          rfl, ?_⟩, [], by simp⟩
        intro t ht
        rw [List.eq_of_mem_replicate ht]
        simp
      · rw [if_neg (by simpa using heof)] at h
        obtain ⟨⟨mid, spanE, h1, h2⟩, more, h3⟩ := ih _ _ _ _ h
        refine ⟨⟨⟨ti, ts⟩ :: mid, spanE, ?_, ?_⟩, more, h3⟩
        · rw [h1]
          simp
        · intro t ht
          rcases List.mem_cons.mp ht with h | h
          · subst h; simpa using heof
          · exact h2 t h
    | error e =>
      dsimp only at h
      obtain ⟨⟨mid, spanE, h1, h2⟩, more, h3⟩ := ih _ _ _ _ h
      refine ⟨⟨mid, spanE, h1, h2⟩, [e] ++ more, ?_⟩
      rw [h3]
      simp

/-- C2: for every input string, `lex_all` terminates (the fuel supplied
by `lexAllRaw` is proved sufficient) and returns either `Ok` with a
token sequence whose last token is the single `Eof`, or `Err` with a
non-empty error list — never a mix (the `Ok`/`Err` split is exactly
"no error was recorded"). -/
theorem c2_lexAll_total_shape (s : String) :
    (∃ toks spanE, lexInput s = .ok toks ∧
      toks.getLast? = some ⟨.Eof, spanE⟩ ∧
      (toks.map Spanned.inner).count .Eof = 1) ∨
    (∃ errs, lexInput s = .error errs ∧ errs ≠ []) := by
  have hget : Lexer.lexAllGo ((Lexer.new 0 s).input.length + 2) (Lexer.new 0 s) [] []
      = some ((Lexer.new 0 s).lexAllRaw) := (Option.some_get _).symm
  obtain ⟨⟨mid, spanE, h1, h2⟩, more, h3⟩ := lexAllGo_shape _ _ _ _ _ hget
  rw [List.nil_append] at h1
  by_cases he : ((Lexer.new 0 s).lexAllRaw).2.1 = []
  · left
    refine ⟨((Lexer.new 0 s).lexAllRaw).1, spanE, ?_, ?_, ?_⟩
    · simp only [lexInput, Lexer.lexAll]
      rw [if_pos he]
    · rw [h1]
      exact List.getLast?_concat _
    · rw [h1]
      simp only [List.map_append, List.count_append]
      have hmid : (mid.map Spanned.inner).count TokenKind.Eof = 0 := by
        rw [List.count_eq_zero]
        intro hmem
        obtain ⟨t, ht, hti⟩ := List.mem_map.mp hmem
        exact h2 t ht hti
      rw [hmid]
      simp [List.count_cons]
  · right
    refine ⟨((Lexer.new 0 s).lexAllRaw).2.1, ?_, he⟩
    simp only [lexInput, Lexer.lexAll]
    rw [if_neg he]

/-- `Type` from crates/syntax/src/ast.rs (named `Ty` here because `Type`
is a Lean universe keyword). -/
inductive Ty where
  | Unit
  | Bool
  | U64
  | I64
deriving DecidableEq, Repr

/-- `BinOp` from ast.rs. -/
inductive BinOp where
  | Add
  | Sub
  | Mul
  | Div
  | Mod
  | Equal
  | NotEq
  | Less
  | Le
  | Greater
  | Ge
  | Or
  | And
deriving DecidableEq, Repr

/-- `BinOp::binding_power` from ast.rs: the fixed
(left, right) binding-power pair per operator. -/
def BinOp.bindingPower : BinOp → Nat × Nat
  | .Or => (1, 2)
  | .And => (3, 4)
  | .Equal | .NotEq => (5, 6)
  | .Less | .Le | .Greater | .Ge => (7, 8)
  | .Add | .Sub => (9, 10)
  | .Mul | .Div | .Mod => (11, 12)

/-- `UnaryOp` from ast.rs. -/
inductive UnaryOp where
  | Neg
  | Not
deriving DecidableEq, Repr

mutual
/-- `Expr = Spanned<ExprKind>` from ast.rs, as a mutual inductive (the
Rust type alias over `Spanned` becomes a one-constructor inductive with
`inner`/`span` accessors below). -/
inductive Expr where
  | mk (inner : ExprKind) (span : Span)

/-- `ExprKind` from ast.rs (`Ident` is the block-like
sequence-with-tail variant of the source). -/
inductive ExprKind where
  | Int (v : Nat)
  | Bool (b : Bool)
  | Unit
  | Unary (op : Spanned UnaryOp) (expr : Expr)
  | Binary (op : Spanned BinOp) (lhs : Expr) (rhs : Expr)
  | Let (name : Spanned String) (ty : Option (Spanned Ty)) (value : Expr)
  | Assign (name : Spanned String) (value : Expr)
  | Ident (exprs : List Expr) (tail : Expr)
  | Var (s : String)
end

/-- `Spanned::inner` for expressions. -/
def Expr.inner : Expr → ExprKind
  | .mk k _ => k

/-- `Spanned::span` for expressions. -/
def Expr.span : Expr → Span
  | .mk _ s => s

/-- `Expr::new` (i.e. `Spanned::new`) from span.rs/ast.rs. -/
def Expr.new (inner : ExprKind) (span : Span) : Expr := .mk inner span

/-- `ParserError` from crates/syntax/src/parser.rs. -/
inductive ParserError where
  | UnexpectedToken (expected : List TokenKind) (found : TokenKind) (span : Span)
      (fileId : Nat)
  | UnexpectedEof (expected : List TokenKind) (span : Span) (fileId : Nat)
  | MissingExpression (span : Span) (fileId : Nat)
  | InvalidSyntax (message : String) (span : Span) (fileId : Nat)
deriving DecidableEq, Repr

/-- The `Parser` struct from parser.rs. -/
structure Parser where
  tokens : List Token
  pos : Nat
  fileId : Nat
  errors : List ParserError
deriving DecidableEq, Repr

/-- `Parser::new` from parser.rs. -/
def Parser.new (fileId : Nat) (tokens : List Token) : Parser :=
  ⟨tokens, 0, fileId, []⟩

/-- `Parser::current`: `self.tokens.get(self.pos).unwrap_or(&self.tokens[len - 1])`.
The Rust index panics on an empty token list; the parser is only ever
used on `lex_all` output, which always contains `Eof`, so `getLastD`
with a dummy default stands in for the panicking index. -/
def Parser.current (p : Parser) : Token :=
  p.tokens.getD p.pos (p.tokens.getLastD ⟨.Eof, ⟨0, 0⟩⟩)

/-- `Parser::peek(offset)`: like `current`, `offset` tokens ahead. -/
def Parser.peekAt (p : Parser) (offset : Nat) : Token :=
  p.tokens.getD (p.pos + offset) (p.tokens.getLastD ⟨.Eof, ⟨0, 0⟩⟩)

/-- `Parser::peek_is(offset, token)`. -/
def Parser.peekIs (p : Parser) (offset : Nat) (token : TokenKind) : Bool :=
  decide ((p.peekAt offset).inner = token)

/-- `Parser::advance`: return the current token; move the cursor only
if it is not already on the final token. -/
def Parser.advance (p : Parser) : Parser × Token :=
  let token := p.current
  (if p.pos < p.tokens.length - 1 then { p with pos := p.pos + 1 } else p, token)

/-- `Parser::is_at_end`. -/
def Parser.isAtEnd (p : Parser) : Bool :=
  decide (p.current.inner = .Eof)

/-- `Parser::check(kind)`: false at end of input, otherwise compare the
current token kind. -/
def Parser.check (p : Parser) (kind : TokenKind) : Bool :=
  if p.isAtEnd then false else decide (p.current.inner = kind)

/-- `Parser::expect(kind)` from parser.rs: on a match advance and
return the token; on a mismatch return an `UnexpectedToken` error
carrying the current token, without touching the parser state. -/
def Parser.expect (p : Parser) (kind : TokenKind) :
    Parser × Except ParserError Token :=
  if p.check kind then
    let r := p.advance
    (r.1, .ok r.2)
  else
    (p, .error (.UnexpectedToken [kind] p.current.inner p.current.span p.fileId))

/-- `Parser::report_error`. -/
def Parser.reportError (p : Parser) (e : ParserError) : Parser :=
  { p with errors := p.errors ++ [e] }

/-- The operator table of `parse_binary_expr`'s `match` (the `_ => break`
arm becomes `none`). -/
def binOpOfToken : TokenKind → Option BinOp
  | .Plus => some .Add
  | .Minus => some .Sub
  | .Star => some .Mul
  | .Slash => some .Div
  | .Greater => some .Greater
  | .GreaterEqual => some .Ge
  | .Less => some .Less
  | .LessEqual => some .Le
  | .Mod => some .Mod
  | .Equal => some .Equal
  | .NotEqual => some .NotEq
  | .And => some .And
  | .Or => some .Or
  | _ => none

/-- Which of the mutually recursive expression parsers of parser.rs to
run: `parse_primary`, `parse_unary_expr`, `parse_binary_expr(min_bp)`,
or the latter's `loop` with its current accumulated `lhs`. -/
inductive PMode where
  | primary
  | unary
  | binary (minBp : Nat)
  | binloop (minBp : Nat) (lhs : Expr)

/-- The mutually recursive expression parsers of parser.rs
(`parse_primary`, `parse_unary_expr`, `parse_binary_expr` and its inner
`loop`), defunctionalized over `PMode` and driven by fuel. The Rust
recursion is genuinely partial on token lists that do not end in `Eof`
(at the final token `advance` is a no-op, so e.g. `parse_primary` on the
single token `(` recurses forever); on `lex_all` output the fuel chosen
in `Parser.parseExpr` suffices, as the concrete evaluations below show.
`none` is fuel exhaustion; `some (p, none)` is the source's `None`
(a failed sub-parse, with errors recorded in `p`). -/
def parseGo : Nat → PMode → Parser → Option (Parser × Option Expr)
  | 0, _, _ => none
  | fuel + 1, .primary, p =>
    match p.current.inner with
    | .IntLiteral x =>
      let r := p.advance
      some (r.1, some (Expr.new (.Int x) r.2.span))
    | .BoolLiteral v =>
      let r := p.advance
      some (r.1, some (Expr.new (.Bool v) r.2.span))
    | .Ident v =>
      let r := p.advance
      some (r.1, some (Expr.new (.Var v) r.2.span))
    | .LParen =>
      let r := p.advance
      let lSpan := r.2.span
      if r.1.peekIs 1 .RParen then
        let r2 := r.1.advance
        some (r2.1, some (Expr.new .Unit (lSpan.merge r2.2.span)))
      else
        match parseGo fuel (.binary 0) r.1 with
        | none => none
        | some (p', none) => some (p', none)
        | some (p', some e) =>
          let r2 := p'.advance
          some (r2.1, some (Expr.new e.inner ((lSpan.merge e.span).merge r2.2.span)))
    | _ =>
      some (p.reportError (.MissingExpression p.current.span p.fileId), none)
  | fuel + 1, .unary, p =>
    match p.current.inner with
    | .Minus =>
      let r := p.advance
      match parseGo fuel .unary r.1 with
      | none => none
      | some (p', none) => some (p', none)
      | some (p', some operand) =>
        some (p', some (Expr.new (.Unary ⟨.Neg, r.2.span⟩ operand)
          (r.2.span.merge operand.span)))
    | .Not =>
      let r := p.advance
      match parseGo fuel .unary r.1 with
      | none => none
      | some (p', none) => some (p', none)
      | some (p', some operand) =>
        some (p', some (Expr.new (.Unary ⟨.Not, r.2.span⟩ operand)
          (r.2.span.merge operand.span)))
    | _ => parseGo fuel .primary p
  | fuel + 1, .binary minBp, p =>
    match parseGo fuel .unary p with
    | none => none
    | some (p', none) => some (p', none)
    | some (p', some lhs) => parseGo fuel (.binloop minBp lhs) p'
  | fuel + 1, .binloop minBp lhs, p =>
    match binOpOfToken p.current.inner with
    | none => some (p, some lhs)
    | some op =>
      if (op.bindingPower).1 < minBp then some (p, some lhs)
      else
        let r := p.advance
        match parseGo fuel (.binary (op.bindingPower).2) r.1 with
        | none => none
        | some (p', none) => some (p', none)
        | some (p', some rhs) =>
          parseGo fuel
            (.binloop minBp (Expr.new (.Binary ⟨op, r.2.span⟩ lhs rhs)
              (lhs.span.merge rhs.span))) p'

/-- `Parser::parse_expr` (i.e. `parse_binary_expr(0)`), with a fuel
bound that is ample for any `lex_all` output. -/
def Parser.parseExpr (p : Parser) : Option (Parser × Option Expr) :=
  parseGo (p.tokens.length * 8 + 8) (.binary 0) p

/-- Lex a string and run `parse_expr` on the resulting tokens,
returning the produced expression (if any) and the recorded parse
errors; `none` if lexing failed or fuel ran out. -/
def parseInput (s : String) : Option (Option Expr × List ParserError) :=
  match lexInput s with
  | .ok toks =>
    match (Parser.new 0 toks).parseExpr with
    | some (p, e) => some (e, p.errors)
    | none => none
  | .error _ => none

/-- C3: the claim says `"()"` parses to the `Unit` variant spanning both
parentheses and `"(expr)"` re-spans `expr`. After consuming `(`,
`parse_primary` tests `peek_is(1, RParen)` — the token *after* the
current one — so the check is off by one: `"()"` fails with
`MissingExpression` at the `)` and yields no node, while `"(x)"` takes
the unit branch, returns `Unit` spanning `(x`, and leaves the `)`
unconsumed. Only parenthesized expressions of two or more tokens, such
as `"(1+2)"`, behave as specified. -/
theorem c3_unit_literal_off_by_one :
    parseInput "()" = some (none, [.MissingExpression ⟨1, 2⟩ 0]) ∧
      parseInput "(x)" = some (some (Expr.new .Unit ⟨0, 2⟩), []) ∧
      parseInput "(1+2)" = some (some
        (Expr.mk (.Binary ⟨.Add, ⟨2, 3⟩⟩ (Expr.mk (.Int 1) ⟨1, 2⟩)
          (Expr.mk (.Int 2) ⟨3, 4⟩)) ⟨0, 5⟩), []) :=
  ⟨rfl, rfl, rfl⟩

/-- C5: the binding-power table is exactly `||` (1,2) < `&&` (3,4) <
`=`,`<>` (5,6) < `<`,`<=`,`>`,`>=` (7,8) < `+`,`-` (9,10) <
`*`,`/`,`mod` (11,12), every operator's right binding power is its left
plus one, and the three precedence/associativity examples parse as
claimed: `"1 + 2 * 3"` as `Add(1, Mul(2,3))`, `"1 - 2 - 3"` as
`Sub(Sub(1,2),3)`, `"1 || 2 && 3"` as `Or(1, And(2,3))`. -/
theorem c5_binding_power_table :
    BinOp.bindingPower .Or = (1, 2) ∧
      BinOp.bindingPower .And = (3, 4) ∧
      BinOp.bindingPower .Equal = (5, 6) ∧
      BinOp.bindingPower .NotEq = (5, 6) ∧
      BinOp.bindingPower .Less = (7, 8) ∧
      BinOp.bindingPower .Le = (7, 8) ∧
      BinOp.bindingPower .Greater = (7, 8) ∧
      BinOp.bindingPower .Ge = (7, 8) ∧
      BinOp.bindingPower .Add = (9, 10) ∧
      BinOp.bindingPower .Sub = (9, 10) ∧
      BinOp.bindingPower .Mul = (11, 12) ∧
      BinOp.bindingPower .Div = (11, 12) ∧
      BinOp.bindingPower .Mod = (11, 12) ∧
      (∀ op : BinOp, (op.bindingPower).2 = (op.bindingPower).1 + 1) ∧
      parseInput "1 + 2 * 3" = some (some
        (Expr.mk (.Binary ⟨.Add, ⟨2, 3⟩⟩ (Expr.mk (.Int 1) ⟨0, 1⟩)
          (Expr.mk (.Binary ⟨.Mul, ⟨6, 7⟩⟩ (Expr.mk (.Int 2) ⟨4, 5⟩)
            (Expr.mk (.Int 3) ⟨8, 9⟩)) ⟨4, 9⟩)) ⟨0, 9⟩), []) ∧
      parseInput "1 - 2 - 3" = some (some
        (Expr.mk (.Binary ⟨.Sub, ⟨6, 7⟩⟩
          (Expr.mk (.Binary ⟨.Sub, ⟨2, 3⟩⟩ (Expr.mk (.Int 1) ⟨0, 1⟩)
            (Expr.mk (.Int 2) ⟨4, 5⟩)) ⟨0, 5⟩)
          (Expr.mk (.Int 3) ⟨8, 9⟩)) ⟨0, 9⟩), []) ∧
      parseInput "1 || 2 && 3" = some (some
        (Expr.mk (.Binary ⟨.Or, ⟨2, 4⟩⟩ (Expr.mk (.Int 1) ⟨0, 1⟩)
          (Expr.mk (.Binary ⟨.And, ⟨7, 9⟩⟩ (Expr.mk (.Int 2) ⟨5, 6⟩)
            (Expr.mk (.Int 3) ⟨10, 11⟩)) ⟨5, 11⟩)) ⟨0, 11⟩), []) :=
  ⟨rfl, rfl, rfl, rfl, rfl, rfl, rfl, rfl, rfl, rfl, rfl, rfl, rfl,
    fun op => by cases op <;> rfl, rfl, rfl, rfl⟩

/-- Recognizer for the `UnexpectedEof` variant of `ParserError`. -/
def ParserError.isUnexpectedEof : ParserError → Bool
  | .UnexpectedEof .. => true
  | _ => false

/-- Recognizer for an `Err(UnexpectedEof ..)` result of `expect`. -/
def errIsUnexpectedEof : Except ParserError Token → Bool
  | .error e => e.isUnexpectedEof
  | .ok _ => false

/-- C9, counterexample: the claim says `expect(k)` produces an
`UnexpectedEof` error when the current token is `Eof`. On the token
sequence of the empty input (just `Eof`), `expect(Plus)` leaves the
parser untouched but produces `UnexpectedToken` (with `found = Eof`) —
never `UnexpectedEof`, a variant `expect` cannot construct at all. -/
theorem c9_expect_eof_counterexample :
    (Parser.new 0 [⟨.Eof, ⟨0, 1⟩⟩]).expect .Plus =
      (Parser.new 0 [⟨.Eof, ⟨0, 1⟩⟩],
        .error (.UnexpectedToken [.Plus] .Eof ⟨0, 1⟩ 0)) ∧
      errIsUnexpectedEof ((Parser.new 0 [⟨.Eof, ⟨0, 1⟩⟩]).expect .Plus).2 = false :=
  ⟨rfl, rfl⟩

/-- C9, amended: for every token kind `k`, `expect(k)` on a mismatch
leaves the parser (in particular its cursor) unchanged and produces an
`UnexpectedToken` error carrying the current token's kind and span —
also at end of input, where the found kind is `Eof`; `expect` never
produces `UnexpectedEof`. -/
theorem c9_expect_mismatch (p : Parser) (kind : TokenKind)
    (h : p.check kind = false) :
    p.expect kind =
      (p, .error (.UnexpectedToken [kind] p.current.inner p.current.span p.fileId)) := by
  unfold Parser.expect
  rw [h]
  simp

/-- Witness for `c9_expect_mismatch` at the token sequence of the empty
input and expected kind `Plus`. -/
theorem c9_expect_mismatch_witness :
    (Parser.new 0 [⟨.Eof, ⟨0, 2⟩⟩, ⟨.Eof, ⟨0, 1⟩⟩]).check .Plus = false ∧
      (Parser.new 0 [⟨.Eof, ⟨0, 2⟩⟩, ⟨.Eof, ⟨0, 1⟩⟩]).expect .Plus =
        (Parser.new 0 [⟨.Eof, ⟨0, 2⟩⟩, ⟨.Eof, ⟨0, 1⟩⟩],
          .error (.UnexpectedToken [.Plus] .Eof ⟨0, 2⟩ 0)) :=
  ⟨rfl, c9_expect_mismatch _ _ rfl⟩

/-- `Severity` from crates/diag/src/lib.rs. -/
inductive Severity where
  | Error
  | Warning
  | Note
  | Help
deriving DecidableEq, Repr

/-- `Label` from crates/diag/src/lib.rs. -/
structure Label where
  span : Span
  fileId : Nat
  message : Option String
  isPrimary : Bool
deriving DecidableEq, Repr

/-- `Label::primary`. -/
def Label.primary (fileId : Nat) (span : Span) : Label :=
  ⟨span, fileId, none, true⟩

/-- `Label::secondary`. -/
def Label.secondary (fileId : Nat) (span : Span) : Label :=
  ⟨span, fileId, none, false⟩

/-- `Label::with_message`. -/
def Label.withMessage (l : Label) (message : String) : Label :=
  { l with message := some message }

/-- `Diagnostic` from crates/diag/src/lib.rs. -/
structure Diagnostic where
  message : String
  severity : Severity
  code : Option String
  labels : List Label
  notes : List String
  help : Option String
deriving DecidableEq, Repr

/-- `Diagnostic::new`. -/
def Diagnostic.new (severity : Severity) : Diagnostic :=
  ⟨"", severity, none, [], [], none⟩

/-- `Diagnostic::with_message`. -/
def Diagnostic.withMessage (d : Diagnostic) (message : String) : Diagnostic :=
  { d with message := message }

/-- `Diagnostic::with_code`. -/
def Diagnostic.withCode (d : Diagnostic) (code : String) : Diagnostic :=
  { d with code := some code }

/-- `Diagnostic::with_note`. -/
def Diagnostic.withNote (d : Diagnostic) (note : String) : Diagnostic :=
  { d with notes := d.notes ++ [note] }

/-- `Diagnostic::with_label`. -/
def Diagnostic.withLabel (d : Diagnostic) (l : Label) : Diagnostic :=
  { d with labels := d.labels ++ [l] }

/-- `Diagnostic::with_help`. -/
def Diagnostic.withHelp (d : Diagnostic) (help : String) : Diagnostic :=
  { d with help := some help }

/-- The `derive(Debug)` rendering of a `TokenKind`, as interpolated by
`format!("{:?}", ..)` in parser.rs (string escaping minutiae of the
`Ident` payload aside, which no claim depends on). -/
def tokenKindDebug : TokenKind → String
  | .IntLiteral v => "IntLiteral(" ++ (toString v ++ ")")
  | .BoolLiteral b => "BoolLiteral(" ++ ((if b then "true" else "false") ++ ")")
  | .Ident s => "Ident(" ++ (s ++ ")")
  | .Let => "Let"
  | .Mod => "Mod"
  | .Not => "Not"
  | .Fn => "Fn"
  | .U64 => "U64"
  | .I64 => "I64"
  | .Plus => "Plus"
  | .Minus => "Minus"
  | .Star => "Star"
  | .Slash => "Slash"
  | .Equal => "Equal"
  | .NotEqual => "NotEqual"
  | .Less => "Less"
  | .LessEqual => "LessEqual"
  | .Greater => "Greater"
  | .GreaterEqual => "GreaterEqual"
  | .And => "And"
  | .Or => "Or"
  | .LParen => "LParen"
  | .RParen => "RParen"
  | .Comma => "Comma"
  | .Dot => "Dot"
  | .Colon => "Colon"
  | .Eof => "Eof"
  | .Arrow => "Arrow"
  | .Indent => "Indent"
  | .Dedent => "Dedent"
  | .Newline => "Newline"

/-- The `Display` rendering of a `TokenKind` from token.rs. -/
def tokenKindDisplay : TokenKind → String
  | .IntLiteral _ => "integer literal"
  | .BoolLiteral _ => "boolean literal"
  | .Ident _ => "identifier"
  | .Let => "`let`"
  | .Mod => "`mod`"
  | .Not => "`not`"
  | .Plus => "`+`"
  | .Minus => "`-`"
  | .Star => "`*`"
  | .Slash => "`/`"
  | .Equal => "`=`"
  | .NotEqual => "`<>`"
  | .Less => "`<`"
  | .LessEqual => "`<=`"
  | .Greater => "`>`"
  | .GreaterEqual => "`>=`"
  | .And => "`&&`"
  | .Or => "`||`"
  | .LParen => "`(`"
  | .RParen => "`)`"
  | .Comma => "`,`"
  | .Dot => "`.`"
  | .Colon => "`:`"
  | .Newline => "newline"
  | .Eof => "end of file"
  | .Fn => "`fn`"
  | .Indent => "`indent`"
  | .Dedent => "dedent"
  | .Arrow => "`->`"
  | .U64 => "u64"
  | .I64 => "i64"

/-- The span carried by a `LexerError` (each variant's `span` field). -/
def LexerError.span : LexerError → Span
  | .UnexpectedCharacter _ s _ => s
  | .InvalidNumber _ s _ => s
  | .NumberTooLarge s _ => s
  | .InvalidIndentation s _ => s

/-- The file id carried by a `LexerError`. -/
def LexerError.fileId : LexerError → Nat
  | .UnexpectedCharacter _ _ f => f
  | .InvalidNumber _ _ f => f
  | .NumberTooLarge _ f => f
  | .InvalidIndentation _ f => f

/-- `impl DiagnosticConvertible for LexerError` from lexer.rs. -/
def LexerError.intoDiagnostic : LexerError → Diagnostic
  | .UnexpectedCharacter ch span fileId =>
    (((Diagnostic.new .Error).withMessage
        ("unexpected character `" ++ (ch.toString ++ "`"))).withLabel
      ((Label.primary fileId span).withMessage
        "this character is not valid here")).withHelp
      "remove this character or replace it with a valid token"
  | .InvalidNumber text span fileId =>
    (((Diagnostic.new .Error).withMessage "invalid number literal").withLabel
      ((Label.primary fileId span).withMessage
        ("`" ++ (text ++ "` is not a valid number")))).withHelp
      "check that the number uses valid digits and does not contain extra symbols"
  | .NumberTooLarge span fileId =>
    (((Diagnostic.new .Error).withMessage "number literal is too large").withLabel
      ((Label.primary fileId span).withMessage
        "this value does not fit in the target integer type")).withHelp
      "try using a smaller value or a wider integer type if available"
  | .InvalidIndentation span fileId =>
    ((((Diagnostic.new .Error).withMessage "invalid indentation").withLabel
      ((Label.primary fileId span).withMessage
        "this indentation does not match any previous block level")).withNote
      "indentation must match the indentation of a previous block exactly").withHelp
      "align this line with a previous block or fix inconsistent spaces/tabs"

/-- The span carried by a `ParserError`. -/
def ParserError.span : ParserError → Span
  | .UnexpectedToken _ _ s _ => s
  | .UnexpectedEof _ s _ => s
  | .MissingExpression s _ => s
  | .InvalidSyntax _ s _ => s

/-- The file id carried by a `ParserError`. -/
def ParserError.fileId : ParserError → Nat
  | .UnexpectedToken _ _ _ f => f
  | .UnexpectedEof _ _ f => f
  | .MissingExpression _ f => f
  | .InvalidSyntax _ _ f => f

/-- `impl DiagnosticConvertible for ParserError` from parser.rs. -/
def ParserError.intoDiagnostic : ParserError → Diagnostic
  | .UnexpectedToken expected found span fileId =>
    let expectedStr :=
      if expected = [] then "something else"
      else if expected.length = 1 then
        "`" ++ (tokenKindDebug (expected.getD 0 .Eof) ++ "`")
      else
        "one of " ++ String.intercalate ", "
          (expected.map fun k => "`" ++ (tokenKindDebug k ++ "`"))
    ((Diagnostic.new .Error).withMessage
        ("unexpected token `" ++ (tokenKindDebug found ++ "`"))).withLabel
      ((Label.primary fileId span).withMessage
        ("expected " ++ (expectedStr ++ (", found `" ++ (tokenKindDebug found ++ "`")))))
  | .UnexpectedEof expected span fileId =>
    let expectedStr :=
      if expected = [] then "more input"
      else String.intercalate ", " (expected.map tokenKindDisplay)
    ((Diagnostic.new .Error).withMessage "unexpected end of file").withLabel
      ((Label.primary fileId span).withMessage ("expected " ++ expectedStr))
  | .MissingExpression span fileId =>
    ((Diagnostic.new .Error).withMessage "expected expression").withLabel
      ((Label.primary fileId span).withMessage "expression expected here")
  | .InvalidSyntax message span fileId =>
    ((Diagnostic.new .Error).withMessage "invalid syntax").withLabel
      ((Label.primary fileId span).withMessage message)

theorem str_append_ne_empty (s t : String) (h : s.length ≠ 0) : s ++ t ≠ "" := by
  intro he
  have hlen := congrArg String.length he
  rw [String.length_append] at hlen
  have h0 : ("" : String).length = 0 := rfl
  rw [h0] at hlen
  omega

/-- C7: every variant of `LexerError` and of `ParserError` converts via
`into_diagnostic` to a `Diagnostic` of severity `Error` with a
non-empty message and at least one primary label whose span and file id
equal the error's own. -/
theorem c7_diagnostic_conversion :
    (∀ e : LexerError,
      (e.intoDiagnostic).severity = .Error ∧
        (e.intoDiagnostic).message ≠ "" ∧
        ∃ lab ∈ (e.intoDiagnostic).labels,
          lab.isPrimary = true ∧ lab.span = e.span ∧ lab.fileId = e.fileId) ∧
    (∀ e : ParserError,
      (e.intoDiagnostic).severity = .Error ∧
        (e.intoDiagnostic).message ≠ "" ∧
        ∃ lab ∈ (e.intoDiagnostic).labels,
          lab.isPrimary = true ∧ lab.span = e.span ∧ lab.fileId = e.fileId) := by
  constructor <;> intro e <;> cases e <;> refine ⟨rfl, ?_, ?_⟩ <;>
    (try simp only [LexerError.intoDiagnostic, ParserError.intoDiagnostic,
      Diagnostic.new, Diagnostic.withMessage, Diagnostic.withLabel,
      Diagnostic.withNote, Diagnostic.withHelp, Label.primary,
      Label.withMessage, LexerError.span, LexerError.fileId,
      ParserError.span, ParserError.fileId, List.nil_append]) <;>
    first
      | decide
      | exact str_append_ne_empty _ _ (by decide)
      | exact ⟨_, List.mem_singleton_self _, rfl, rfl, rfl⟩

/-- The loop of Rust's `slice::binary_search` (`&[BytePos]`, total order
on the underlying `usize`), searching within `[left, right)`: probe
`mid = left + (right - left) / 2`, narrowing to the half that can hold
`x`, returning `Ok(index)` on an exact hit and `Err(insertion point)`
otherwise. Out-of-range probes (impossible while `right ≤ len`) read 0. -/
def bsLoop (l : List Nat) (x : Nat) (left right : Nat) : Except Nat Nat :=
  if h : left < right then
    let mid := left + (right - left) / 2
    let v := l.getD mid 0
    if v < x then bsLoop l x (mid + 1) right
    else if x < v then bsLoop l x left mid
    else .ok mid
  else .error left
termination_by right - left
decreasing_by
  · omega
  · omega

/-- `slice::binary_search` over the whole list. -/
def binarySearch (l : List Nat) (x : Nat) : Except Nat Nat :=
  bsLoop l x 0 l.length

/-- `SourceFile` from crates/diag/src/source.rs. -/
structure SourceFile where
  name : String
  source : String
  lineStarts : List Nat
deriving DecidableEq, Repr

/-- `SourceFile::line_col` from source.rs: binary-search the line
starts; an exact hit is its own line, otherwise step back one from the
insertion point (clamped at 0); report 1-based line and column. The
Rust `self.line_starts[line]` index is total here via `getD` (the index
is in bounds whenever `line_starts` is nonempty, as proved below). -/
def SourceFile.lineCol (f : SourceFile) (pos : Nat) : Nat × Nat :=
  let line :=
    match binarySearch f.lineStarts pos with
    | .ok i => i
    | .error 0 => 0
    | .error i => i - 1
  let col := pos - f.lineStarts.getD line 0
  (line + 1, col + 1)

/-- The scan of `compute_line_starts` from source.rs: `char_indices`
yields byte offsets, and each `'\n'` at byte offset `idx` records
`idx + 1`. -/
def lineStartsAux : Nat → List Char → List Nat
  | _, [] => []
  | idx, c :: cs =>
    if c = '\n' then (idx + 1) :: lineStartsAux (idx + c.utf8Size) cs
    else lineStartsAux (idx + c.utf8Size) cs

/-- `compute_line_starts` from source.rs: offset 0 plus one entry per
newline. -/
def computeLineStarts (s : String) : List Nat :=
  0 :: lineStartsAux 0 s.toList

theorem lineStartsAux_mem_pos :
    ∀ (cs : List Char) (idx y : Nat), y ∈ lineStartsAux idx cs → idx < y := by
  intro cs
  induction cs with
  | nil => intro idx y h; simp [lineStartsAux] at h
  | cons c cs ih =>
    intro idx y h
    have hsz : 1 ≤ c.utf8Size := Char.utf8Size_pos c
    by_cases hc : c = '\n'
    · rw [lineStartsAux, if_pos hc] at h
      rcases List.mem_cons.mp h with h | h
      · omega
      · have := ih _ _ h
        omega
    · rw [lineStartsAux, if_neg hc] at h
      have := ih _ _ h
      omega

theorem lineStartsAux_sorted :
    ∀ (cs : List Char) (idx : Nat), (lineStartsAux idx cs).Pairwise (· < ·) := by
  intro cs
  induction cs with
  | nil => intro idx; simp [lineStartsAux]
  | cons c cs ih =>
    intro idx
    by_cases hc : c = '\n'
    · rw [lineStartsAux, if_pos hc]
      refine List.pairwise_cons.mpr ⟨?_, ih _⟩
      intro y hy
      have := lineStartsAux_mem_pos _ _ _ hy
      have hsz : c.utf8Size = 1 := by rw [hc]; rfl
      omega
    · rw [lineStartsAux, if_neg hc]
      exact ih _

/-- The computed line starts are strictly increasing and begin with 0. -/
theorem computeLineStarts_sorted (s : String) :
    (computeLineStarts s).Pairwise (· < ·) := by
  refine List.pairwise_cons.mpr ⟨?_, lineStartsAux_sorted _ _⟩
  intro y hy
  exact Nat.lt_of_le_of_lt (Nat.zero_le _) (lineStartsAux_mem_pos _ _ _ hy)

theorem sorted_getD_lt (l : List Nat) (hs : l.Pairwise (· < ·)) (i j : Nat)
    (hij : i < j) (hj : j < l.length) : l.getD i 0 < l.getD j 0 := by
  rw [List.getD_eq_getElem _ _ (by omega), List.getD_eq_getElem _ _ hj]
  have := List.pairwise_iff_get.mp hs ⟨i, by omega⟩ ⟨j, hj⟩ hij
  simpa using this

/-- Correctness of the binary-search loop over a strictly sorted list:
`Ok i` is an exact hit, `Err i` is the insertion point (everything
below is smaller than `x`, everything at or above is larger). -/
theorem bsLoop_correct (l : List Nat) (x : Nat) (hs : l.Pairwise (· < ·)) :
    ∀ (n left right : Nat), right - left ≤ n → left ≤ right →
      right ≤ l.length →
      (∀ i, i < left → l.getD i 0 < x) →
      (∀ i, right ≤ i → i < l.length → x < l.getD i 0) →
      (match bsLoop l x left right with
       | .ok i => i < l.length ∧ l.getD i 0 = x
       | .error i => i ≤ l.length ∧ (∀ j, j < i → l.getD j 0 < x) ∧
           (∀ j, i ≤ j → j < l.length → x < l.getD j 0)) := by
  intro n
  induction n with
  | zero =>
    intro left right hn hlr hrl hlow hhigh
    have hlr' : ¬left < right := by omega
    rw [bsLoop, dif_neg hlr']
    exact ⟨by omega, hlow, fun j hj hjl => hhigh j (by omega) hjl⟩
  | succ n ih =>
    intro left right hn hlr hrl hlow hhigh
    by_cases hlt : left < right
    · rw [bsLoop, dif_pos hlt]
      dsimp only
      have hmid1 : left ≤ left + (right - left) / 2 := by omega
      have hmid2 : left + (right - left) / 2 < right := by omega
      by_cases h1 : l.getD (left + (right - left) / 2) 0 < x
      · rw [if_pos h1]
        apply ih (left + (right - left) / 2 + 1) right (by omega) (by omega) hrl
        · intro i hi
          rcases Nat.lt_or_ge i left with hil | hil
          · exact hlow i hil
          · rcases Nat.eq_or_lt_of_le (Nat.le_of_lt_succ hi) with rfl | hi'
            · exact h1
            · exact Nat.lt_trans (sorted_getD_lt l hs _ _ hi' (by omega)) h1
        · exact hhigh
      · rw [if_neg h1]
        by_cases h2 : x < l.getD (left + (right - left) / 2) 0
        · rw [if_pos h2]
          apply ih left (left + (right - left) / 2) (by omega) (by omega) (by omega) hlow
          intro i hi hil
          rcases Nat.eq_or_lt_of_le hi with rfl | hi'
          · exact h2
          · exact Nat.lt_trans h2 (sorted_getD_lt l hs _ _ hi' hil)
        · rw [if_neg h2]
          exact ⟨by omega, by omega⟩
    · rw [bsLoop, dif_neg hlt]
      exact ⟨by omega, hlow, fun j hj hjl => hhigh j (by omega) hjl⟩

/-- C6: for every source text and every offset, `line_col` over the
computed line starts `L` returns the 1-based line `i + 1` where `i` is
the greatest index with `L[i] ≤ pos` (so `L[i] ≤ pos < L[i+1]` when a
next line exists), with column `pos - L[i] + 1`; offsets at or beyond
end of file therefore resolve to the last recorded line instead of
failing. -/
theorem c6_line_col (nm src : String) (pos : Nat) :
    ∃ i, i < (computeLineStarts src).length ∧
      (computeLineStarts src).getD i 0 ≤ pos ∧
      (∀ j, j < (computeLineStarts src).length →
        (computeLineStarts src).getD j 0 ≤ pos → j ≤ i) ∧
      SourceFile.lineCol ⟨nm, src, computeLineStarts src⟩ pos =
        (i + 1, pos - (computeLineStarts src).getD i 0 + 1) := by
  set L := computeLineStarts src with hL
  have hs : L.Pairwise (· < ·) := computeLineStarts_sorted src
  have hlen : 0 < L.length := by rw [hL, computeLineStarts]; simp
  have h0 : L.getD 0 0 = 0 := by rw [hL, computeLineStarts]; rfl
  have hbs := bsLoop_correct L pos hs L.length 0 L.length (by omega) (by omega)
    le_rfl (by intro i hi; omega) (by intro i h1 h2; omega)
  rcases hres : bsLoop L pos 0 L.length with i | i
  all_goals rw [hres] at hbs; dsimp only at hbs
  · -- Err: insertion point, step back one line
    obtain ⟨hle, hlow, hhigh⟩ := hbs
    rcases i with _ | i'
    · exact absurd (hhigh 0 (by omega) hlen) (by omega)
    have hbs2 : binarySearch L pos = .error (i' + 1) := hres
    refine ⟨i', by omega, Nat.le_of_lt (hlow i' (by omega)), ?_, ?_⟩
    · intro j hj hjle
      by_contra hji
      exact absurd (hhigh j (by omega) hj) (by omega)
    · rw [SourceFile.lineCol]
      dsimp only
      rw [hbs2]
      simp
  · -- Ok: exact hit on a line start
    obtain ⟨hilt, hieq⟩ := hbs
    have hbs2 : binarySearch L pos = .ok i := hres
    refine ⟨i, hilt, Nat.le_of_eq hieq, ?_, ?_⟩
    · intro j hj hjle
      by_contra hji
      have := sorted_getD_lt L hs i j (by omega) hj
      omega
    · rw [SourceFile.lineCol]
      dsimp only
      rw [hbs2]

theorem scanRun_unfold (q : Char → Bool) (hq : q '\x00' = false)
    (cs : List Char) (pos : Nat) :
    scanRun q cs pos =
      if q (cs.getD pos '\x00') then
        cs.getD pos '\x00' :: scanRun q cs (pos + 1)
      else [] := by
  by_cases hlt : pos < cs.length
  · have hd : cs.drop pos = cs[pos] :: cs.drop (pos + 1) :=
      List.drop_eq_getElem_cons hlt
    have hget : cs.getD pos '\x00' = cs[pos] := List.getD_eq_getElem _ _ hlt
    rw [scanRun, hd, List.takeWhile_cons, hget]
    rfl
  · have hd : cs.drop pos = [] := List.drop_eq_nil_of_le (by omega)
    have hget : cs.getD pos '\x00' = '\x00' :=
      List.getD_eq_default _ _ (by omega)
    rw [scanRun, hd, hget, hq]
    rfl

theorem scanRun_mem (q : Char → Bool) (hq : q '\x00' = false) (cs : List Char) :
    ∀ (k pos : Nat), k < (scanRun q cs pos).length →
      q (cs.getD (pos + k) '\x00') = true := by
  intro k
  induction k with
  | zero =>
    intro pos hk
    rw [scanRun_unfold q hq] at hk
    by_cases hqc : q (cs.getD pos '\x00')
    · simpa using hqc
    · rw [if_neg hqc] at hk
      simp at hk
  | succ k ih =>
    intro pos hk
    rw [scanRun_unfold q hq] at hk
    by_cases hqc : q (cs.getD pos '\x00')
    · rw [if_pos hqc, List.length_cons] at hk
      have := ih (pos + 1) (by omega)
      simpa [Nat.add_comm, Nat.add_assoc, Nat.add_left_comm] using this
    · rw [if_neg hqc] at hk
      simp at hk

theorem scanRun_congr (q : Char → Bool) (hq : q '\x00' = false)
    (a b : List Char) (p : Nat)
    (hagree : ∀ i, i ≤ p → a.getD i '\x00' = b.getD i '\x00')
    (ha : a.getD p '\x00' = '\x00') :
    ∀ (n pos : Nat), p - pos ≤ n → pos ≤ p →
      scanRun q a pos = scanRun q b pos ∧
        pos + (scanRun q a pos).length ≤ p := by
  intro n
  induction n with
  | zero =>
    intro pos hn hp
    have hpp : pos = p := by omega
    subst hpp
    have hb : b.getD pos '\x00' = '\x00' := by rw [← hagree pos le_rfl, ha]
    rw [scanRun_unfold q hq a, scanRun_unfold q hq b, ha, hb, hq]
    simp
  | succ n ih =>
    intro pos hn hp
    rcases Nat.eq_or_lt_of_le hp with rfl | hlt
    · have hb : b.getD pos '\x00' = '\x00' := by rw [← hagree pos le_rfl, ha]
      rw [scanRun_unfold q hq a, scanRun_unfold q hq b, ha, hb, hq]
      simp
    · rw [scanRun_unfold q hq a, scanRun_unfold q hq b, hagree pos (by omega)]
      by_cases hqc : q (b.getD pos '\x00')
      · rw [if_pos hqc, if_pos hqc]
        obtain ⟨he, hl⟩ := ih (pos + 1) (by omega) (by omega)
        refine ⟨by rw [he], ?_⟩
        rw [he] at hl ⊢
        simp only [List.length_cons]
        omega
      · rw [if_neg hqc, if_neg hqc]
        simp
        omega

theorem popWhileGreater_head (indent : Nat) :
    ∀ (s : List Nat) (v : Nat), s.getLast? = some v → v ≤ indent →
      (popWhileGreater indent s).1.headD 0 ≤ indent ∧
        (popWhileGreater indent s).1.getLast? = some v := by
  intro s
  induction s with
  | nil => intro v hv _; simp at hv
  | cons top rest ih =>
    intro v hv hvi
    by_cases htop : indent < top
    · rcases rest with _ | ⟨r, rest'⟩
      · simp at hv
        omega
      · have hv' : (r :: rest').getLast? = some v := by
          rw [← hv]
          rfl
        have := ih v hv' hvi
        rw [popWhileGreater, if_pos htop]
        dsimp only
        exact this
    · rw [popWhileGreater, if_neg htop]
      dsimp only
      refine ⟨by simpa using htop, hv⟩

theorem popWhileGreater_getLast (indent : Nat) :
    ∀ (s : List Nat) (v : Nat), s.getLast? = some v → v ≤ indent →
      (popWhileGreater indent s).1.getLast? = some v :=
  fun s v hv hvi => (popWhileGreater_head indent s v hv hvi).2

theorem getLast?_cons_of_some (x : Nat) (s : List Nat) (v : Nat)
    (h : s.getLast? = some v) : (x :: s).getLast? = some v := by
  rcases s with _ | ⟨y, s'⟩
  · simp at h
  · rw [List.getLast?_cons_cons]
    exact h

/-- Simulation of `handle_newline` between an input `a` carrying a NUL
at position `p` and an input `b` agreeing with `a` up to `p`: starting
strictly inside the agreeing prefix, with no space immediately before
position `p` and a 0 at the bottom of the indentation stack, both runs
produce the same result, stay within the prefix, error only strictly
inside it, and preserve the stack bottom. -/
theorem handleNewline_sim (a b : List Char) (p : Nat)
    (hagree : ∀ i, i ≤ p → a.getD i '\x00' = b.getD i '\x00')
    (ha : a.getD p '\x00' = '\x00')
    (hhaz : 0 < p → b.getD (p - 1) '\x00' ≠ ' ')
    (l : Lexer) (hin : l.input = b) (hplt : l.pos < p)
    (hstack : l.indentStack.getLast? = some 0) :
    (({ l with input := a }).handleNewline).2 = (l.handleNewline).2 ∧
      (({ l with input := a }).handleNewline).1 =
        { (l.handleNewline).1 with input := a } ∧
      (l.handleNewline).1.pos ≤ p ∧
      (∀ e, (l.handleNewline).2 = .error e → (l.handleNewline).1.pos < p) ∧
      (l.handleNewline).1.indentStack.getLast? = some 0 := by
  have hq : (fun c => decide (c = ' ')) '\x00' = false := by decide
  obtain ⟨hrun, hstop⟩ := scanRun_congr (fun c => decide (c = ' ')) hq a b p
    hagree ha (p - (l.pos + 1)) (l.pos + 1) (by omega) (by omega)
  unfold Lexer.handleNewline Lexer.countIndent Lexer.advance
  dsimp only
  rw [hin, hrun]
  set len := (scanRun (fun c => decide (c = ' ')) b (l.pos + 1)).length with hlen
  rw [hrun] at hstop
  rw [← hlen] at hstop
  have hspace : 1 ≤ len → b.getD (l.pos + 1 + (len - 1)) '\x00' = ' ' := by
    intro h1
    have := scanRun_mem (fun c => decide (c = ' ')) hq b (len - 1) (l.pos + 1)
      (by omega)
    simpa using this
  have herrpos : 1 ≤ len → (l.pos + 1 + len < p) := by
    intro h1
    rcases Nat.lt_or_ge (l.pos + 1 + len) p with h | h
    · exact h
    · exfalso
      have hsp := hspace h1
      have hpe : l.pos + 1 + len = p := by omega
      have hsp2 : b.getD (p - 1) '\x00' = ' ' := by
        rw [← hsp]
        congr 1
        omega
      exact hhaz (by omega) hsp2
  split_ifs with h1 h2 h3
  · -- indent > current: push
    exact ⟨rfl, rfl, by dsimp only; omega, fun e he => absurd he (by simp),
      getLast?_cons_of_some _ _ _ hstack⟩
  · -- indent < current, pop leaves a mismatched top: InvalidIndentation
    refine ⟨rfl, rfl, by dsimp only; omega, ?_,
      popWhileGreater_getLast len _ 0 hstack (by omega)⟩
    intro e _
    dsimp only
    rcases Nat.eq_zero_or_pos len with h0 | hpos
    · exfalso
      have hh := popWhileGreater_head len l.indentStack 0 hstack (by omega)
      rw [h0] at h3 hh
      omega
    · exact herrpos hpos
  · -- indent < current, pop matches exactly
    exact ⟨rfl, rfl, by dsimp only; omega, fun e he => absurd he (by simp),
      popWhileGreater_getLast len _ 0 hstack (by omega)⟩
  · -- indent = current
    exact ⟨rfl, rfl, by dsimp only; omega, fun e he => absurd he (by simp), hstack⟩

theorem lexNum_sim (a b : List Char) (p : Nat)
    (hagree : ∀ i, i ≤ p → a.getD i '\x00' = b.getD i '\x00')
    (ha : a.getD p '\x00' = '\x00')
    (hdig : 0 < p → (b.getD (p - 1) '\x00').isDigit = false)
    (l : Lexer) (hin : l.input = b) (hpos : l.pos ≤ p) :
    (({ l with input := a }).lexNum).2 = (l.lexNum).2 ∧
      (({ l with input := a }).lexNum).1 = { (l.lexNum).1 with input := a } ∧
      (l.lexNum).1.pos ≤ p ∧
      (∀ e, (l.lexNum).2 = .error e → (l.lexNum).1.pos < p) := by
  have hq : Char.isDigit '\x00' = false := by decide
  obtain ⟨hrun, hstop⟩ := scanRun_congr Char.isDigit hq a b p hagree ha
    (p - l.pos) l.pos (by omega) hpos
  unfold Lexer.lexNum
  dsimp only
  rw [hin, hrun]
  rw [hrun] at hstop
  set len := (scanRun Char.isDigit b l.pos).length with hlen
  have herrpos : 1 ≤ len → ¬(l.pos + len < p) → False := by
    intro h1 h2
    have hpe : l.pos + len = p := by omega
    have hd := scanRun_mem Char.isDigit hq b (len - 1) l.pos (by omega)
    apply Bool.false_ne_true
    rw [← hdig (by omega), ← hd]
    congr 2
    omega
  split_ifs with hv hall
  · exact ⟨rfl, rfl, by dsimp only; omega, fun e he => absurd he (by simp)⟩
  · refine ⟨rfl, rfl, by dsimp only; omega, ?_⟩
    intro e _
    dsimp only
    have h1 : 1 ≤ len := by
      by_contra h0
      have hz : len = 0 := by omega
      apply hv
      have : scanRun Char.isDigit b l.pos = [] := List.eq_nil_of_length_eq_zero (by omega)
      rw [this]
      decide
    by_contra h2
    exact herrpos h1 h2
  · refine ⟨rfl, rfl, by dsimp only; omega, ?_⟩
    intro e _
    dsimp only
    have h1 : 1 ≤ len := by
      by_contra h0
      have hz : len = 0 := by omega
      apply hv
      have : scanRun Char.isDigit b l.pos = [] := List.eq_nil_of_length_eq_zero (by omega)
      rw [this]
      decide
    by_contra h2
    exact herrpos h1 h2

/-- Simulation of `next_token`'s dispatch between an input `a` carrying
a NUL at position `p` and an input `b` agreeing with it up to `p`
(with no NUL strictly before `p`, and no `-`, `<`, `>`, space or digit
immediately before `p`): both runs return the same result, the result
state differs only in the stored input, a non-`Eof` token ends within
the prefix, an error ends strictly inside it, and the stack bottom 0 is
preserved. -/
theorem nextTokenKind_sim (a b : List Char) (p : Nat)
    (hagree : ∀ i, i ≤ p → a.getD i '\x00' = b.getD i '\x00')
    (ha : a.getD p '\x00' = '\x00')
    (hhaz : 0 < p → b.getD (p - 1) '\x00' ≠ '-' ∧ b.getD (p - 1) '\x00' ≠ '<' ∧
      b.getD (p - 1) '\x00' ≠ '>' ∧ b.getD (p - 1) '\x00' ≠ ' ' ∧
      (b.getD (p - 1) '\x00').isDigit = false)
    (l : Lexer) (hin : l.input = b) (hpos : l.pos ≤ p)
    (hstack : l.indentStack.getLast? = some 0) :
    (({ l with input := a }).nextTokenKind).2 = (l.nextTokenKind).2 ∧
      (({ l with input := a }).nextTokenKind).1 =
        { (l.nextTokenKind).1 with input := a } ∧
      (∀ k, (l.nextTokenKind).2 = .ok k → k ≠ .Eof →
        (l.nextTokenKind).1.pos ≤ p) ∧
      (∀ e, (l.nextTokenKind).2 = .error e → (l.nextTokenKind).1.pos < p) ∧
      (l.nextTokenKind).1.indentStack.getLast? = some 0 := by
  have hcur : ({ l with input := a } : Lexer).current = l.current := by
    simp only [Lexer.current]
    rw [hin]
    exact hagree l.pos hpos
  have hcurb : l.current = b.getD l.pos '\x00' := by
    simp only [Lexer.current]
    rw [hin]
  unfold Lexer.nextTokenKind
  dsimp only
  rw [hcur]
  by_cases h0 : l.current = '\x00'
  · simp only [if_pos h0]
    exact ⟨by trivial, by trivial,
      fun k hk hne => absurd (by injection hk with h; exact h.symm) hne,
      fun e he => absurd he (by simp), hstack⟩
  simp only [if_neg h0]
  have hplt : l.pos < p := by
    rcases Nat.eq_or_lt_of_le hpos with rfl | h
    · exact absurd (by rw [hcurb, ← hagree l.pos le_rfl, ha]) h0
    · exact h
  have hpk : ({ l with input := a } : Lexer).peek = l.peek := by
    simp only [Lexer.peek]
    rw [hin]
    exact hagree (l.pos + 1) (by omega)
  rw [hpk]
  by_cases h1 : l.current = '\n'
  · simp only [if_pos h1]
    obtain ⟨s1, s2, s3, s4, s5⟩ := handleNewline_sim a b p hagree ha
      (fun hp => (hhaz hp).2.2.2.1) l hin hplt hstack
    exact ⟨s1, s2, fun k _ _ => s3, s4, s5⟩
  simp only [if_neg h1]
  by_cases h2 : l.current = '('
  · simp only [if_pos h2]
    exact ⟨by trivial, by trivial, fun k _ _ => by dsimp only [Lexer.advance]; omega,
      fun e he => absurd he (by simp), hstack⟩
  simp only [if_neg h2]
  by_cases h3 : l.current = ')'
  · simp only [if_pos h3]
    exact ⟨by trivial, by trivial, fun k _ _ => by dsimp only [Lexer.advance]; omega,
      fun e he => absurd he (by simp), hstack⟩
  simp only [if_neg h3]
  by_cases h4 : l.current = '.'
  · simp only [if_pos h4]
    exact ⟨by trivial, by trivial, fun k _ _ => by dsimp only [Lexer.advance]; omega,
      fun e he => absurd he (by simp), hstack⟩
  simp only [if_neg h4]
  by_cases h5 : l.current = ','
  · simp only [if_pos h5]
    exact ⟨by trivial, by trivial, fun k _ _ => by dsimp only [Lexer.advance]; omega,
      fun e he => absurd he (by simp), hstack⟩
  simp only [if_neg h5]
  by_cases h6 : l.current = ':'
  · simp only [if_pos h6]
    exact ⟨by trivial, by trivial, fun k _ _ => by dsimp only [Lexer.advance]; omega,
      fun e he => absurd he (by simp), hstack⟩
  simp only [if_neg h6]
  by_cases h7 : l.current = '+'
  · simp only [if_pos h7]
    exact ⟨by trivial, by trivial, fun k _ _ => by dsimp only [Lexer.advance]; omega,
      fun e he => absurd he (by simp), hstack⟩
  simp only [if_neg h7]
  by_cases h8 : l.current = '-'
  · simp only [if_pos h8]
    have hp1 : l.pos + 1 < p := by
      rcases Nat.lt_or_ge (l.pos + 1) p with h | h
      · exact h
      · exfalso
        apply (hhaz (by omega)).1
        rw [← hcurb.symm.trans h8]
        congr 1
        omega
    have hpk2 : (({ l with input := a } : Lexer).advance).peek = (l.advance).peek := by
      simp only [Lexer.peek, Lexer.advance]
      rw [hin]
      exact hagree (l.pos + 1 + 1) (by omega)
    rw [hpk2]
    by_cases h8a : (l.advance).peek = '>'
    · simp only [if_pos h8a]
      exact ⟨by trivial, by trivial, fun k _ _ => by dsimp only [Lexer.advance]; omega,
        fun e he => absurd he (by simp), hstack⟩
    · simp only [if_neg h8a]
      exact ⟨by trivial, by trivial, fun k _ _ => by dsimp only [Lexer.advance]; omega,
        fun e he => absurd he (by simp), hstack⟩
  simp only [if_neg h8]
  by_cases h9 : l.current = '*'
  · simp only [if_pos h9]
    exact ⟨by trivial, by trivial, fun k _ _ => by dsimp only [Lexer.advance]; omega,
      fun e he => absurd he (by simp), hstack⟩
  simp only [if_neg h9]
  by_cases h10 : l.current = '/'
  · simp only [if_pos h10]
    exact ⟨by trivial, by trivial, fun k _ _ => by dsimp only [Lexer.advance]; omega,
      fun e he => absurd he (by simp), hstack⟩
  simp only [if_neg h10]
  by_cases h11 : l.current = '='
  · simp only [if_pos h11]
    exact ⟨by trivial, by trivial, fun k _ _ => by dsimp only [Lexer.advance]; omega,
      fun e he => absurd he (by simp), hstack⟩
  simp only [if_neg h11]
  by_cases h12 : l.current = '<'
  · simp only [if_pos h12]
    have hp1 : l.pos + 1 < p := by
      rcases Nat.lt_or_ge (l.pos + 1) p with h | h
      · exact h
      · exfalso
        apply (hhaz (by omega)).2.1
        rw [← hcurb.symm.trans h12]
        congr 1
        omega
    have hpk2 : (({ l with input := a } : Lexer).advance).peek = (l.advance).peek := by
      simp only [Lexer.peek, Lexer.advance]
      rw [hin]
      exact hagree (l.pos + 1 + 1) (by omega)
    rw [hpk2]
    by_cases h12a : (l.advance).peek = '>'
    · simp only [if_pos h12a]
      exact ⟨by trivial, by trivial, fun k _ _ => by dsimp only [Lexer.advance]; omega,
        fun e he => absurd he (by simp), hstack⟩
    simp only [if_neg h12a]
    by_cases h12b : (l.advance).peek = '='
    · simp only [if_pos h12b]
      exact ⟨by trivial, by trivial, fun k _ _ => by dsimp only [Lexer.advance]; omega,
        fun e he => absurd he (by simp), hstack⟩
    · simp only [if_neg h12b]
      exact ⟨by trivial, by trivial, fun k _ _ => by dsimp only [Lexer.advance]; omega,
        fun e he => absurd he (by simp), hstack⟩
  simp only [if_neg h12]
  by_cases h13 : l.current = '>'
  · simp only [if_pos h13]
    have hp1 : l.pos + 1 < p := by
      rcases Nat.lt_or_ge (l.pos + 1) p with h | h
      · exact h
      · exfalso
        apply (hhaz (by omega)).2.2.1
        rw [← hcurb.symm.trans h13]
        congr 1
        omega
    have hpk2 : (({ l with input := a } : Lexer).advance).peek = (l.advance).peek := by
      simp only [Lexer.peek, Lexer.advance]
      rw [hin]
      exact hagree (l.pos + 1 + 1) (by omega)
    rw [hpk2]
    by_cases h13a : (l.advance).peek = '='
    · simp only [if_pos h13a]
      exact ⟨by trivial, by trivial, fun k _ _ => by dsimp only [Lexer.advance]; omega,
        fun e he => absurd he (by simp), hstack⟩
    · simp only [if_neg h13a]
      exact ⟨by trivial, by trivial, fun k _ _ => by dsimp only [Lexer.advance]; omega,
        fun e he => absurd he (by simp), hstack⟩
  simp only [if_neg h13]
  have hbp : b.getD p '\x00' = '\x00' := by rw [← hagree p le_rfl]; exact ha
  by_cases h14 : l.current = '&' ∧ l.peek = '&'
  · simp only [if_pos h14]
    have hp1 : l.pos + 1 < p := by
      rcases Nat.lt_or_ge (l.pos + 1) p with h | h
      · exact h
      · exfalso
        have hpe : l.pos + 1 = p := by omega
        have hz : l.peek = '\x00' := by rw [Lexer.peek, hin, hpe, hbp]
        rw [hz] at h14
        exact absurd h14.2 (by decide)
    exact ⟨by trivial, by trivial, fun k _ _ => by dsimp only [Lexer.advance]; omega,
      fun e he => absurd he (by simp), hstack⟩
  simp only [if_neg h14]
  by_cases h15 : l.current = '|' ∧ l.peek = '|'
  · simp only [if_pos h15]
    have hp1 : l.pos + 1 < p := by
      rcases Nat.lt_or_ge (l.pos + 1) p with h | h
      · exact h
      · exfalso
        have hpe : l.pos + 1 = p := by omega
        have hz : l.peek = '\x00' := by rw [Lexer.peek, hin, hpe, hbp]
        rw [hz] at h15
        exact absurd h15.2 (by decide)
    exact ⟨by trivial, by trivial, fun k _ _ => by dsimp only [Lexer.advance]; omega,
      fun e he => absurd he (by simp), hstack⟩
  simp only [if_neg h15]
  by_cases h16 : isIdentStart l.current = true
  · simp only [if_pos h16]
    have hq : isIdentCont '\x00' = false := by decide
    obtain ⟨hrun, hstop⟩ := scanRun_congr isIdentCont hq a b p hagree ha
      (p - l.pos) l.pos (by omega) hpos
    have hA1 : (({ l with input := a } : Lexer).lexIdent).1 =
        { (l.lexIdent).1 with input := a } := by
      simp only [Lexer.lexIdent]
      rw [hin, hrun]
    have hA2 : (({ l with input := a } : Lexer).lexIdent).2 = (l.lexIdent).2 := by
      simp only [Lexer.lexIdent]
      rw [hin, hrun]
    rw [hA1, hA2]
    refine ⟨by trivial, by trivial, fun k _ _ => ?_, fun e he => absurd he (by simp), hstack⟩
    simp only [Lexer.lexIdent]
    rw [hin]
    rw [hrun] at hstop
    omega
  simp only [if_neg h16]
  by_cases h17 : Char.isDigit l.current = true
  · simp only [if_pos h17]
    obtain ⟨n1, n2, n3, n4⟩ := lexNum_sim a b p hagree ha
      (fun hp => (hhaz hp).2.2.2.2) l hin hpos
    have hstk : (l.lexNum).1.indentStack = l.indentStack := by
      unfold Lexer.lexNum
      dsimp only
      split_ifs <;> rfl
    rw [n1, n2]
    refine ⟨by trivial, by trivial, fun k _ _ => n3, ?_, by rw [hstk]; exact hstack⟩
    intro e he
    rcases hB2 : (l.lexNum).2 with e' | v
    · exact n4 e' hB2
    · rw [hB2] at he
      exact absurd he (by simp [Except.map])
  simp only [if_neg h17]
  exact ⟨by trivial, by trivial, fun k hk => absurd hk (by simp),
    fun e _ => hplt, hstack⟩

theorem nextToken_sim (a b : List Char) (p : Nat)
    (hagree : ∀ i, i ≤ p → a.getD i '\x00' = b.getD i '\x00')
    (ha : a.getD p '\x00' = '\x00')
    (hhaz : 0 < p → b.getD (p - 1) '\x00' ≠ '-' ∧ b.getD (p - 1) '\x00' ≠ '<' ∧
      b.getD (p - 1) '\x00' ≠ '>' ∧ b.getD (p - 1) '\x00' ≠ ' ' ∧
      (b.getD (p - 1) '\x00').isDigit = false)
    (l : Lexer) (hin : l.input = b) (hpos : l.pos ≤ p)
    (hstack : l.indentStack.getLast? = some 0) :
    (({ l with input := a }).nextToken).2 = (l.nextToken).2 ∧
      (({ l with input := a }).nextToken).1 = { (l.nextToken).1 with input := a } ∧
      (∀ tok, (l.nextToken).2 = .ok tok → tok.inner ≠ .Eof →
        (l.nextToken).1.pos ≤ p) ∧
      (∀ e, (l.nextToken).2 = .error e → (l.nextToken).1.pos < p) ∧
      (l.nextToken).1.indentStack.getLast? = some 0 := by
  have hqw : isHorizWs '\x00' = false := by decide
  obtain ⟨hrun, hstop⟩ := scanRun_congr isHorizWs hqw a b p hagree ha
    (p - l.pos) l.pos (by omega) hpos
  have hss : ({ l with input := a } : Lexer).skipWhitespace =
      { l.skipWhitespace with input := a } := by
    simp only [Lexer.skipWhitespace]
    rw [hin, hrun]
  have hsin : (l.skipWhitespace).input = b := hin
  have hsp : (l.skipWhitespace).pos ≤ p := by
    simp only [Lexer.skipWhitespace]
    rw [hin]
    rw [hrun] at hstop
    omega
  obtain ⟨k1, k2, k3, k4, k5⟩ := nextTokenKind_sim a b p hagree ha hhaz
    l.skipWhitespace hsin hsp hstack
  unfold Lexer.nextToken
  dsimp only
  rw [hss, k2, k1]
  dsimp only
  refine ⟨rfl, rfl, ?_, ?_, k5⟩
  · intro tok htok hne
    rcases hr : ((l.skipWhitespace).nextTokenKind).2 with e | k
    · rw [hr] at htok
      exact absurd htok (by simp [Except.map])
    · rw [hr] at htok
      simp only [Except.map] at htok
      injection htok with htok
      apply k3 k hr
      intro hke
      apply hne
      rw [← htok, hke]
  · intro e he
    rcases hr : ((l.skipWhitespace).nextTokenKind).2 with e' | k
    · exact k4 e' hr
    · rw [hr] at he
      exact absurd he (by simp [Except.map])

theorem lexAllGo_sim (a b : List Char) (p : Nat)
    (hagree : ∀ i, i ≤ p → a.getD i '\x00' = b.getD i '\x00')
    (ha : a.getD p '\x00' = '\x00')
    (hhaz : 0 < p → b.getD (p - 1) '\x00' ≠ '-' ∧ b.getD (p - 1) '\x00' ≠ '<' ∧
      b.getD (p - 1) '\x00' ≠ '>' ∧ b.getD (p - 1) '\x00' ≠ ' ' ∧
      (b.getD (p - 1) '\x00').isDigit = false) :
    ∀ (fuel : Nat) (l : Lexer) (toks : List Token) (errs : List LexerError),
      l.input = b → l.pos ≤ p → l.indentStack.getLast? = some 0 →
      Option.map (fun r => (r.1, r.2.1))
          (Lexer.lexAllGo fuel { l with input := a } toks errs) =
        Option.map (fun r => (r.1, r.2.1)) (Lexer.lexAllGo fuel l toks errs) := by
  intro fuel
  induction fuel with
  | zero => intro l toks errs _ _ _; rfl
  | succ f ih =>
    intro l toks errs hin hpos hstack
    obtain ⟨s1, s2, s3, s4, s5⟩ := nextToken_sim a b p hagree ha hhaz l hin hpos hstack
    have hinpres : (l.nextToken).1.input = l.input := (nextToken_spec l).1
    unfold Lexer.lexAllGo
    rcases hnt : l.nextToken with ⟨l', rr⟩
    rw [hnt] at s1 s2 s3 s4 s5 hinpres
    dsimp only at s1 s2 s3 s4 s5 hinpres
    have hA : ({ l with input := a } : Lexer).nextToken = ({ l' with input := a }, rr) := by
      rcases hA2 : ({ l with input := a } : Lexer).nextToken with ⟨lA, rA⟩
      rw [hA2] at s1 s2
      dsimp only at s1 s2
      rw [s1, s2]
    rw [hA]
    cases rr with
    | ok tok =>
      dsimp only
      by_cases heof : tok.inner = .Eof
      · rw [if_pos heof, if_pos heof]
        rfl
      · rw [if_neg heof, if_neg heof]
        exact ih l' (toks ++ [tok]) errs (hinpres.trans hin) (s3 tok rfl heof) s5
    | error e =>
      dsimp only
      have hadv : ({ l' with input := a } : Lexer).advance =
          { l'.advance with input := a } := rfl
      rw [hadv]
      have hplt := s4 e rfl
      exact ih l'.advance toks (errs ++ [e])
        (by dsimp only [Lexer.advance]; exact hinpres.trans hin)
        (by dsimp only [Lexer.advance]; omega) s5

/-- C10, counterexample: the claim says an embedded NUL behaves exactly
like end of input, so lexing equals lexing the prefix before the first
NUL. But the one-character lookahead of the `'-'` arm reads *past* an
embedded NUL: `"-\x00>"` lexes as `Arrow`, `Greater` (the lookahead at
the NUL position sees the `>` beyond it), while its pre-NUL prefix
`"-"` lexes as `Minus` — different results. -/
theorem c10_nul_lookahead_counterexample :
    lexInput "-\x00>" = .ok
      [⟨.Arrow, ⟨0, 2⟩⟩, ⟨.Greater, ⟨2, 3⟩⟩, ⟨.Eof, ⟨3, 4⟩⟩] ∧
      lexInput "-" = .ok [⟨.Minus, ⟨0, 1⟩⟩, ⟨.Eof, ⟨1, 2⟩⟩] ∧
      lexInput "-\x00>" ≠ lexInput "-" := by
  refine ⟨rfl, rfl, ?_⟩
  intro h
  have h1 : lexInput "-\x00>" = .ok
      [⟨.Arrow, ⟨0, 2⟩⟩, ⟨.Greater, ⟨2, 3⟩⟩, ⟨.Eof, ⟨3, 4⟩⟩] := rfl
  have h2 : lexInput "-" = .ok [⟨.Minus, ⟨0, 1⟩⟩, ⟨.Eof, ⟨1, 2⟩⟩] := rfl
  rw [h1, h2] at h
  simp at h

/-- C10, amended: for every input whose first NUL is not immediately
preceded by `-`, `<`, `>`, a space or a decimal digit, `lex_all`
returns exactly the same result as lexing the prefix before that NUL
(so text after the first NUL is never tokenized). The excluded
characters are exactly those whose handling can step over the NUL: the
one-character operator lookahead of `-`/`<`/`>`, and the post-error
`advance` after a bad number or a bad indentation run ending at the
NUL. -/
theorem c10_nul_truncates (t rest : List Char)
    (hnul : '\x00' ∉ t)
    (hlast : t = [] ∨ ∃ c, t.getLast? = some c ∧ c ≠ '-' ∧ c ≠ '<' ∧
      c ≠ '>' ∧ c ≠ ' ' ∧ c.isDigit = false) :
    lexInput (String.mk (t ++ '\x00' :: rest)) = lexInput (String.mk t) := by
  have hagree : ∀ i, i ≤ t.length →
      (t ++ '\x00' :: rest).getD i '\x00' = t.getD i '\x00' := by
    intro i hi
    rcases Nat.eq_or_lt_of_le hi with rfl | hlt
    · rw [List.getD_eq_getElem?_getD, List.getD_eq_getElem?_getD,
        List.getElem?_append_right (le_refl _)]
      simp
    · rw [List.getD_eq_getElem?_getD, List.getD_eq_getElem?_getD,
        List.getElem?_append, if_pos hlt]
  have ha : (t ++ '\x00' :: rest).getD t.length '\x00' = '\x00' := by
    rw [List.getD_eq_getElem?_getD, List.getElem?_append_right (le_refl _)]
    simp
  have hhaz : 0 < t.length → t.getD (t.length - 1) '\x00' ≠ '-' ∧
      t.getD (t.length - 1) '\x00' ≠ '<' ∧ t.getD (t.length - 1) '\x00' ≠ '>' ∧
      t.getD (t.length - 1) '\x00' ≠ ' ' ∧
      (t.getD (t.length - 1) '\x00').isDigit = false := by
    intro hp
    rcases hlast with rfl | ⟨c, hc, hc1, hc2, hc3, hc4, hc5⟩
    · simp at hp
    · have hgd : t.getD (t.length - 1) '\x00' = c := by
        rw [List.getD_eq_getElem?_getD, ← List.getLast?_eq_getElem?, hc]
        rfl
      rw [hgd]
      exact ⟨hc1, hc2, hc3, hc4, hc5⟩
  have hlB0 : (Lexer.new 0 (String.mk t)).indentStack.getLast? = some 0 := rfl
  have hsim := lexAllGo_sim (t ++ '\x00' :: rest) t t.length hagree ha hhaz
    ((t ++ '\x00' :: rest).length + 2) (Lexer.new 0 (String.mk t)) [] []
    rfl (Nat.zero_le _) hlB0
  have hB0 : Lexer.lexAllGo (t.length + 2) (Lexer.new 0 (String.mk t)) [] []
      = some ((Lexer.new 0 (String.mk t)).lexAllRaw) := (Option.some_get _).symm
  have hBF : Lexer.lexAllGo ((t ++ '\x00' :: rest).length + 2)
      (Lexer.new 0 (String.mk t)) [] []
      = some ((Lexer.new 0 (String.mk t)).lexAllRaw) := by
    apply lexAllGo_mono (t.length + 2) _ _ _ _ _ _ hB0
    simp [List.length_append]
  have hA0 : Lexer.lexAllGo ((t ++ '\x00' :: rest).length + 2)
      { Lexer.new 0 (String.mk t) with input := t ++ '\x00' :: rest } [] []
      = some ((Lexer.new 0 (String.mk (t ++ '\x00' :: rest))).lexAllRaw) :=
    (Option.some_get _).symm
  rw [hA0, hBF] at hsim
  simp only [Option.map_some'] at hsim
  injection hsim with hsim
  rw [Prod.mk.injEq] at hsim
  obtain ⟨hT, hE⟩ := hsim
  show (Lexer.new 0 (String.mk (t ++ '\x00' :: rest))).lexAll =
    (Lexer.new 0 (String.mk t)).lexAll
  unfold Lexer.lexAll
  dsimp only
  rw [hT, hE]

/-- Witness for `c10_nul_truncates`: `"a\x00b"` lexes exactly like
`"a"`. -/
theorem c10_nul_truncates_witness :
    lexInput (String.mk (['a'] ++ '\x00' :: ['b'])) = lexInput (String.mk ['a']) :=
  c10_nul_truncates ['a'] ['b'] (by decide)
    (Or.inr ⟨'a', rfl, by decide, by decide, by decide, by decide, by decide⟩)
